import Mathlib

/-!
# WebpDownloader: a shallow embedding of `main.go`

Go strings are modelled as lists of Unicode code points (`Str`).  The separators
the program looks for (`/`, `?`, `.`) are ASCII, so scanning code points and
scanning UTF-8 bytes find the same positions.  The functions of the Go standard
library that the program calls (`strings`, `path/filepath` with `/` as the
separator, the `%d` verb of `fmt`, the two regular expressions) are modelled by
the definitions of the first section; the functions of `main.go` follow, under
their own names.
-/

namespace WebpDownloader

/-- A Go string, as the list of its code points. -/
abbrev Str := List Char

/-! ## The Go library functions used by `main.go` -/

/-- `strings.Split(s, sep)` for a one-character separator: always at least one
piece, the pieces never contain the separator. -/
def stringsSplit (sep : Char) : Str → List Str
  | [] => [[]]
  | c :: cs =>
    if c = sep then [] :: stringsSplit sep cs
    else
      match stringsSplit sep cs with
      | [] => [[c]]
      | p :: ps => (c :: p) :: ps

/-- `strings.Join(parts, sep)` for a one-character separator. -/
def stringsJoin (sep : Char) : List Str → Str
  | [] => []
  | [p] => p
  | p :: q :: ps => p ++ sep :: stringsJoin sep (q :: ps)

/-- `strings.Index(s, sep)` for a one-character separator; `none` stands for
Go's `-1`. -/
def stringsIndex (sep : Char) : Str → Option Nat
  | [] => none
  | c :: cs => if c = sep then some 0 else (stringsIndex sep cs).map (· + 1)

/-- `strings.HasPrefix(s, p)`. -/
def startsWith (s p : Str) : Bool := p.isPrefixOf s

/-- `strings.HasSuffix(s, suffix)`. -/
def endsWith (s suffix : Str) : Bool := suffix.reverse.isPrefixOf s.reverse

/-- `strings.TrimSuffix(s, suffix)`: `s` without the trailing `suffix`, or `s`
itself when it does not end in `suffix`. -/
def stringsTrimSuffix (s suffix : Str) : Str :=
  if endsWith s suffix then s.take (s.length - suffix.length) else s

/-- `unicode.ToLower` on one code point.  ASCII capitals move to the small
letters; the only two code points outside ASCII whose lower case is an ASCII
letter are U+0130 (to `i`) and U+212A, the Kelvin sign (to `k`).  Every other
code point outside ASCII has a lower case outside ASCII; the model leaves those
in place. -/
def unicodeToLower (c : Char) : Char :=
  if 65 ≤ c.toNat ∧ c.toNat ≤ 90 then Char.ofNat (c.toNat + 32)
  else if c.toNat = 0x130 then 'i'
  else if c.toNat = 0x212A then 'k'
  else c

/-- `strings.ToLower(s)`. -/
def stringsToLower (s : Str) : Str := s.map unicodeToLower

/-- The scan of `filepath.Ext`, from the last character backwards: `rev` is what
is still to be read (reversed), `acc` what has been read. -/
def extScan : Str → Str → Str
  | [], _ => []
  | c :: rev, acc =>
    if c = '/' then []
    else if c = '.' then '.' :: acc
    else extScan rev (c :: acc)

/-- `filepath.Ext(path)`: the suffix starting at the last dot of the last
element of `path`, empty when there is no dot. -/
def filepathExt (path : Str) : Str := extScan path.reverse []

/-- The class `\d` of Go's `regexp`: the ten ASCII digits. -/
def isDecimalDigit (c : Char) : Bool := decide (48 ≤ c.toNat ∧ c.toNat ≤ 57)

/-- The match of the regular expression `^\d+$` (no flags: `$` is the end of the
text): one or more ASCII digits and nothing else. -/
def matchDigitsOnly (s : Str) : Bool := !s.isEmpty && s.all isDecimalDigit

/-- The character class of the regular expression of `sanitizeFilename`. -/
def forbiddenChars : List Char := ['<', '>', ':', '"', '/', '\\', '|', '?', '*']

/-! ## `main.go`: classification and resolution of URLs -/

/-- The text `.webp`. -/
def dotWebp : Str := ['.', 'w', 'e', 'b', 'p']

/-- The first five lines shared by `isValidWebpFile` and `getFilenameFromURL`:
the last piece of the URL split on `/`, cut at its first `?`. -/
def lastSegment (url : Str) : Str :=
  let parts := stringsSplit '/' url
  let filename := parts.getLastD []
  match stringsIndex '?' filename with
  | some idx => filename.take idx
  | none => filename

/-- `isValidWebpFile` of `main.go`. -/
def isValidWebpFile (url : Str) : Bool :=
  let filename := lastSegment url
  if !endsWith (stringsToLower filename) dotWebp then false
  else
    let basename := stringsTrimSuffix filename (filepathExt filename)
    matchDigitsOnly basename

/-- `getFilenameFromURL` of `main.go`. -/
def getFilenameFromURL (url : Str) : Str := lastSegment url

/-- The last lines of `resolveURL`, reached by every reference that has not
been returned before: the base without its last piece, `/`, the reference.  The
final `return relativeURL` is the branch of an empty `baseParts`. -/
def resolveRelative (baseURL relativeURL : Str) : Str :=
  let baseParts := stringsSplit '/' baseURL
  if 0 < baseParts.length then
    stringsJoin '/' (baseParts.take (baseParts.length - 1)) ++ ['/'] ++ relativeURL
  else relativeURL

/-- `resolveURL` of `main.go`. -/
def resolveURL (baseURL relativeURL : Str) : Str :=
  if startsWith relativeURL ['/', '/'] then
    if startsWith baseURL "https:".toList then "https:".toList ++ relativeURL
    else "http:".toList ++ relativeURL
  else if startsWith relativeURL ['/'] then
    let parts := stringsSplit '/' baseURL
    if 3 ≤ parts.length then parts.getD 0 [] ++ ['/', '/'] ++ parts.getD 2 [] ++ relativeURL
    else resolveRelative baseURL relativeURL
  else resolveRelative baseURL relativeURL

/-- `sanitizeFilename` of `main.go`: every match of the class
`[<>:"/\\|?*]` is replaced by `_`. -/
def sanitizeFilename (filename : Str) : Str :=
  filename.map fun c => if c ∈ forbiddenChars then '_' else c

/-! ## `path/filepath`, with `/` as the separator -/

/-- One element of the path read by `filepath.Clean`; `stack` holds the elements
written so far, the last one first.  An empty element and `.` are dropped; `..`
removes the element before it, is kept when there is none to remove and the
path is not rooted, and is dropped at the root. -/
def cleanStep (rooted : Bool) (stack : List Str) (comp : Str) : List Str :=
  if comp = [] ∨ comp = ['.'] then stack
  else if comp = ['.', '.'] then
    match stack with
    | top :: rest =>
      if top ≠ ['.', '.'] then rest
      else if !rooted then comp :: stack else stack
    | [] => if !rooted then [comp] else []
  else comp :: stack

/-- `filepath.Clean(path)`. -/
def filepathClean (path : Str) : Str :=
  if path = [] then ['.']
  else
    let rooted := startsWith path ['/']
    let stack := (stringsSplit '/' path).foldl (cleanStep rooted) []
    let out := (if rooted then ['/'] else []) ++ stringsJoin '/' stack.reverse
    if out = [] then ['.'] else out

/-- `filepath.Join(elem...)`: the elements from the first non-empty one on,
joined by `/` and cleaned; empty when every element is empty. -/
def filepathJoin (elem : List Str) : Str :=
  match elem.dropWhile (· = []) with
  | [] => []
  | rest => filepathClean (stringsJoin '/' rest)

/-- `filepath.Dir(path)`: all but the last element of `path`, cleaned. -/
def filepathDir (path : Str) : Str :=
  filepathClean (path.reverse.dropWhile (· ≠ '/')).reverse

/-- `filepath.Base(path)`: the last element of `path`, trailing slashes
removed first; `.` for the empty path, `/` for a path of slashes only. -/
def filepathBase (path : Str) : Str :=
  if path = [] then ['.']
  else
    let stripped := path.reverse.dropWhile (· = '/')
    let last := (stripped.takeWhile (· ≠ '/')).reverse
    if last = [] then ['/'] else last

/-- The decimal digits of `n`, most significant first; `fuel` bounds the number
of digits. -/
def formatIntAux : Nat → Nat → Str
  | 0, _ => []
  | fuel + 1, n =>
    if n < 10 then [Nat.digitChar n]
    else formatIntAux fuel (n / 10) ++ [Nat.digitChar (n % 10)]

/-- The verb `%d` of `fmt.Sprintf` on a non-negative integer. -/
def formatInt (n : Nat) : Str := formatIntAux (n + 1) n

/-! ## `main.go`: the unique path allocator -/

/-- The path tried by `getUniqueFilename` for the value `counter`:
`filepath.Join(dir, fmt.Sprintf("%s_%d%s", basename, counter, ext))`. -/
def candidatePath (dir basename ext : Str) (counter : Nat) : Str :=
  filepathJoin [dir, basename ++ '_' :: formatInt counter ++ ext]

/-- The `for` loop of `getUniqueFilename`, run for at most `fuel` values of the
counter: `none` when none of them was free.  The counter is Go's 64-bit `int`;
a run cannot count up to its bound, so it is a natural number here. -/
def uniqueLoop (pathExists : Str → Bool) (dir basename ext : Str) : Nat → Nat → Option Str
  | 0, _ => none
  | fuel + 1, counter =>
    let newPath := candidatePath dir basename ext counter
    if !pathExists newPath then some newPath
    else uniqueLoop pathExists dir basename ext fuel (counter + 1)

/-- `getUniqueFilename` of `main.go`.  `pathExists p` is the negation of
`os.IsNotExist(err)` for the `err` of `os.Stat(p)`. -/
def getUniqueFilename (pathExists : Str → Bool) (fuel : Nat) (filePath : Str) : Option Str :=
  if !pathExists filePath then some filePath
  else
    let dir := filepathDir filePath
    let filename := filepathBase filePath
    let ext := filepathExt filename
    let basename := stringsTrimSuffix filename ext
    uniqueLoop pathExists dir basename ext fuel 1

/-- The path tried by `getUniqueFilename filePath` for the value `k` of its
counter. -/
def candidateOf (filePath : Str) (k : Nat) : Str :=
  candidatePath (filepathDir filePath)
    (stringsTrimSuffix (filepathBase filePath) (filepathExt (filepathBase filePath)))
    (filepathExt (filepathBase filePath)) k

/-! ## `main.go`: the downloader and the loop of `main` -/

/-- What the outside world answers to one call of `downloadFile`. -/
structure Response where
  /-- `client.Get` returns an error. -/
  getFails : Bool
  /-- The status code of the response. -/
  statusCode : Nat
  /-- `os.Create` returns an error. -/
  createFails : Bool
  /-- `io.Copy` returns an error. -/
  copyFails : Bool
  deriving DecidableEq, Repr

/-- The four errors `downloadFile` returns. -/
inductive DownloadError where
  | transport
  | httpStatus (code : Nat)
  | fileCreate
  | fileWrite
  deriving DecidableEq, Repr

/-- The filesystem as `os.Stat` shows it to the program: `fs p` is true when
`os.IsNotExist(err)` is false for the `err` of `os.Stat(p)`, that is when the
path exists or `os.Stat` fails for another reason (a name that is too long, a
directory that may not be read). -/
abbrev FileSystem := Str → Bool

/-- The filesystem in which exactly the paths of the list `files` exist and
`os.Stat` fails for no other reason. -/
def existsIn (files : List Str) : FileSystem := fun p => decide (p ∈ files)

/-- The filesystem after `os.Create(filePath)` has succeeded. -/
def withFile (fs : FileSystem) (filePath : Str) : FileSystem :=
  fun p => decide (p = filePath) || fs p

/-- `downloadFile` of `main.go`: the error returned (`none` for `nil`) and the
filesystem afterwards.  The file is there as soon as `os.Create` succeeded. -/
def downloadFile (resp : Response) (fs : FileSystem) (filePath : Str) :
    Option DownloadError × FileSystem :=
  if resp.getFails then (some .transport, fs)
  else if resp.statusCode ≠ 200 then (some (.httpStatus resp.statusCode), fs)
  else if resp.createFails then (some .fileCreate, fs)
  else if resp.copyFails then (some .fileWrite, withFile fs filePath)
  else (none, withFile fs filePath)

/-- One `img` element of the rendered document, with the answer of the world to
the download of its image. -/
structure ImgElement where
  /-- The attribute `src`, when present. -/
  src : Option Str
  /-- The answer to `downloadFile` for this element. -/
  response : Response
  deriving DecidableEq, Repr

/-- One call of `downloadFile` made by the loop. -/
structure DownloadCall where
  /-- The URL downloaded. -/
  url : Str
  /-- The path returned by `getUniqueFilename`. -/
  adjustedPath : Str
  /-- The error returned by `downloadFile`. -/
  err : Option DownloadError
  deriving DecidableEq, Repr

/-- The state of the loop of `main`. -/
structure RunState where
  /-- The filesystem. -/
  files : FileSystem
  /-- The variable `downloadCount`. -/
  downloadCount : Nat
  /-- The calls of `downloadFile` made so far, the first one first. -/
  calls : List DownloadCall

/-- The URL the loop classifies: `src` itself when it starts with `http`,
`resolveURL(url, src)` otherwise. -/
def absoluteURL (url src : Str) : Str :=
  if !startsWith src "http".toList then resolveURL url src else src

/-- The body of the loop of `main` for one `img` element; `none` when
`getUniqueFilename` has not returned within `fuel` values of its counter. -/
def mainEach (fuel : Nat) (url dirName : Str) (st : RunState) (img : ImgElement) :
    Option RunState :=
  match img.src with
  | none => some st
  | some src0 =>
    let src := absoluteURL url src0
    if isValidWebpFile src then
      let filename := getFilenameFromURL src
      let filePath := filepathJoin [dirName, filename]
      match getUniqueFilename st.files fuel filePath with
      | none => none
      | some adjustedPath =>
        let result := downloadFile img.response st.files adjustedPath
        some { files := result.2
               downloadCount :=
                 if result.1.isNone then st.downloadCount + 1 else st.downloadCount
               calls := st.calls ++ [⟨src, adjustedPath, result.1⟩] }
    else some st

/-- The loop `doc.Find("img").Each(...)` of `main`. -/
def mainLoop (fuel : Nat) (url dirName : Str) : RunState → List ImgElement → Option RunState
  | st, [] => some st
  | st, img :: imgs =>
    match mainEach fuel url dirName st img with
    | none => none
    | some st1 => mainLoop fuel url dirName st1 imgs

/-- How a run of `main` ends. -/
inductive RunResult where
  /-- The program exits through `log.Fatal` before the loop. -/
  | fatal
  /-- A call of `getUniqueFilename` has not returned within the fuel. -/
  | notFinished
  /-- The loop is over and the count is reported. -/
  | finished (st : RunState)

/-- What a finished run reports and did: the count and the calls of
`downloadFile`. -/
def RunResult.summary : RunResult → Option (Nat × List DownloadCall)
  | .finished st => some (st.downloadCount, st.calls)
  | _ => none

/-- The part of `main` after the document is parsed.  The program exits when
the heading is empty and when `os.MkdirAll` fails (`mkdirFails`); `fs` is the
filesystem once the directory is made. -/
def main (fuel : Nat) (url h1Text : Str) (mkdirFails : Bool) (imgs : List ImgElement)
    (fs : FileSystem) : RunResult :=
  if h1Text = [] then .fatal
  else
    let dirName := sanitizeFilename h1Text
    if mkdirFails then .fatal
    else
      match mainLoop fuel url dirName ⟨fs, 0, []⟩ imgs with
      | none => .notFinished
      | some st => .finished st

/-! ## The resolver as the specification words it -/

/-- The base URL with its final `/`-delimited segment dropped: the text before
the last `/`, empty when there is no `/`. -/
def dropFinalSegment (baseURL : Str) : Str :=
  ((baseURL.reverse.dropWhile (· ≠ '/')).drop 1).reverse

/-- The three cases of the resolver in the specification: scheme-relative,
site-root-relative, path-relative. -/
def resolveSpec (baseURL reference : Str) : Str :=
  if startsWith reference ['/', '/'] then
    (if startsWith baseURL "https:".toList then "https:".toList else "http:".toList) ++ reference
  else if startsWith reference ['/'] ∧ 3 ≤ (stringsSplit '/' baseURL).length then
    (stringsSplit '/' baseURL).getD 0 [] ++ ['/', '/'] ++ (stringsSplit '/' baseURL).getD 2 []
      ++ reference
  else dropFinalSegment baseURL ++ ['/'] ++ reference

/-! ## The classified segment as the specification words it -/

/-- The text after the last `/` of `u`; all of `u` when it has no `/`. -/
def afterLastSlash (u : Str) : Str := (u.reverse.takeWhile (· ≠ '/')).reverse

/-- The text `s` cut at its first `?`. -/
def cutAtQuery (s : Str) : Str := s.takeWhile (· ≠ '?')

/-- The segment a URL is classified by: the text after its last `/`, cut at the
first `?`. -/
def segmentOf (u : Str) : Str := cutAtQuery (afterLastSlash u)

/-- The ten decimal digits. -/
def decimalDigits : List Char := ['0', '1', '2', '3', '4', '5', '6', '7', '8', '9']

/-- The shape of a qualifying segment: a non-empty run of decimal digits followed
by a dot and the letters `w`, `e`, `b`, `p`, each in either case. -/
def IsDigitsDotWebp (s : Str) : Prop :=
  ∃ (d : Str) (c1 c2 c3 c4 : Char),
    s = d ++ ['.', c1, c2, c3, c4] ∧ d ≠ [] ∧ (∀ c ∈ d, c ∈ decimalDigits) ∧
    (c1 = 'w' ∨ c1 = 'W') ∧ (c2 = 'e' ∨ c2 = 'E') ∧ (c3 = 'b' ∨ c3 = 'B') ∧
    (c4 = 'p' ∨ c4 = 'P')

/-! ## Auxiliary definitions for the proofs -/

/-- The number written by a string of decimal digits. -/
def digitsValue (s : Str) : Nat := s.foldl (fun a c => 10 * a + (c.toNat - 48)) 0

/-- The elements `filepath.Clean` keeps of `path`, the last one first. -/
def cleanStack (path : Str) : List Str :=
  (stringsSplit '/' path).foldl (cleanStep (startsWith path ['/'])) []

/-- What `filepath.Clean` writes before a further last element appended to
`pre`. -/
def dirPrefix (pre : Str) : Str :=
  (if startsWith pre ['/'] then ['/'] else []) ++
    (if cleanStack pre = [] then [] else stringsJoin '/' (cleanStack pre).reverse ++ ['/'])

/-! ## The loop of `main` as the specification words it -/

/-- The error `downloadFile` returns for an answer of the world; it depends on
neither the filesystem nor the path. -/
def downloadResult (resp : Response) : Option DownloadError :=
  (downloadFile resp (existsIn []) []).1

/-- The download the loop attempts for an element, with its outcome: none for
an element without `src` or whose URL does not qualify. -/
def attempt (url : Str) (img : ImgElement) : Option (Str × Option DownloadError) :=
  match img.src with
  | none => none
  | some src =>
    if isValidWebpFile (absoluteURL url src) then
      some (absoluteURL url src, downloadResult img.response)
    else none

/-- An element counts when it has a `src`, its URL qualifies and its download
returned no error. -/
def countsAsDownloaded (url : Str) (img : ImgElement) : Bool :=
  match img.src with
  | none => false
  | some src =>
    isValidWebpFile (absoluteURL url src) && (downloadResult img.response).isNone

/-- The call left a file at its path: `os.Create` succeeded (the download
returned no error, or failed while copying). -/
def fileCreated (c : DownloadCall) : Bool :=
  decide (c.err = none ∨ c.err = some DownloadError.fileWrite)

/-- The invariant of the loop: the path of every call that left a file is in
the filesystem, and no such path was returned again by a later call. -/
def LoopInvariant (st : RunState) : Prop :=
  (∀ c ∈ st.calls, fileCreated c = true → st.files c.adjustedPath = true) ∧
  st.calls.Pairwise (fun a b => fileCreated a = true → a.adjustedPath ≠ b.adjustedPath)

/-! ## Three concrete runs -/

/-- The answer of a download that succeeds. -/
def okResponse : Response := ⟨false, 200, false, false⟩

/-- The answer of a download that gets the status 404. -/
def notFoundResponse : Response := ⟨false, 404, false, false⟩

/-- The page URL of the runs. -/
def pageURL : Str := "https://site.com/page".toList

/-- The three `img` elements of the gallery page, every download succeeding. -/
def galleryImgs : List ImgElement :=
  [⟨some "1.webp".toList, okResponse⟩, ⟨some "abc.webp".toList, okResponse⟩,
   ⟨some "//cdn.example.com/2.webp?v=2".toList, okResponse⟩]

/-- The calls of the run over `galleryImgs` under the heading `My Gallery`, from
an empty filesystem. -/
def galleryCalls : List DownloadCall :=
  [⟨"https://site.com/1.webp".toList, "My Gallery/1.webp".toList, none⟩,
   ⟨"https://cdn.example.com/2.webp?v=2".toList, "My Gallery/2.webp".toList, none⟩]

/-- Three `img` elements with the same `src`; the first download gets a 404. -/
def repeatedImgs : List ImgElement :=
  [⟨some "1.webp".toList, notFoundResponse⟩, ⟨some "1.webp".toList, okResponse⟩,
   ⟨some "1.webp".toList, okResponse⟩]

/-- The calls of the run over `repeatedImgs` under the heading `d`, from an
empty filesystem. -/
def repeatedCalls : List DownloadCall :=
  [⟨"https://site.com/1.webp".toList, "d/1.webp".toList,
      some (DownloadError.httpStatus 404)⟩,
   ⟨"https://site.com/1.webp".toList, "d/1.webp".toList, none⟩,
   ⟨"https://site.com/1.webp".toList, "d/1_1.webp".toList, none⟩]

/-- The state at the end of the run over `repeatedImgs`. -/
def repeatedResult : RunState :=
  { files := withFile (withFile (existsIn []) "d/1.webp".toList) "d/1_1.webp".toList
    downloadCount := 2
    calls := repeatedCalls }

/-- A filesystem without files on which `os.Stat` fails with "file name too
long" for every path whose last element has more than 255 characters: none of
these errors is "does not exist". -/
def longNameFs : FileSystem := fun p => decide (255 < (filepathBase p).length)

/-- A file name of 300 digits and the extension. -/
def longName : Str := List.replicate 300 '7' ++ dotWebp

/-- Two `img` elements, the first with the long file name. -/
def longNameImgs : List ImgElement :=
  [⟨some longName, okResponse⟩, ⟨some "2.webp".toList, okResponse⟩]

/-! ## Theorems -/

set_option maxRecDepth 100000

/-- The library model on a few inputs, as the Go documentation gives them. -/
theorem library_model_examples :
    filepathClean "a/../../b/./c//d/..".toList = "../b/c".toList ∧
    filepathClean "/../a".toList = "/a".toList ∧
    filepathClean "a/..".toList = ".".toList ∧
    filepathDir "a/b/1.webp".toList = "a/b".toList ∧
    filepathDir "1.webp".toList = ".".toList ∧
    filepathBase "a/b/".toList = "b".toList ∧
    filepathBase "///".toList = "/".toList ∧
    filepathExt "a.b/c".toList = [] ∧
    filepathExt "x/1.tar.gz".toList = ".gz".toList ∧
    filepathJoin ["a".toList, [], "../b".toList] = "b".toList ∧
    formatInt 1203 = "1203".toList ∧
    stringsSplit '/' "https://site.com/a".toList
      = ["https:".toList, [], "site.com".toList, "a".toList] ∧
    stringsSplit '/' [] = [[]] ∧
    stringsToLower "7.WeBP".toList = "7.webp".toList := by
  decide

theorem stringsSplit_ne_nil (sep : Char) (s : Str) : stringsSplit sep s ≠ [] := by
  cases s with
  | nil => simp [stringsSplit]
  | cons c cs =>
    unfold stringsSplit
    split
    · simp
    · split <;> simp

theorem stringsSplit_append_sep (sep : Char) (a b : Str) :
    stringsSplit sep (a ++ sep :: b) = stringsSplit sep a ++ stringsSplit sep b := by
  induction a with
  | nil => simp [stringsSplit]
  | cons c a ih =>
    by_cases h : c = sep
    · simp [stringsSplit, h, ih]
    · have hne := stringsSplit_ne_nil sep a
      rcases hs : stringsSplit sep a with _ | ⟨p, ps⟩
      · exact absurd hs hne
      · simp [stringsSplit, h, ih, hs]

theorem stringsSplit_of_not_mem (sep : Char) (s : Str) (h : sep ∉ s) :
    stringsSplit sep s = [s] := by
  induction s with
  | nil => rfl
  | cons c s ih =>
    simp only [List.mem_cons, not_or] at h
    have hc : ¬ c = sep := fun e => h.1 e.symm
    simp [stringsSplit, hc, ih h.2]

theorem stringsJoin_append_singleton (sep : Char) (ps : List Str) (hps : ps ≠ []) (t : Str) :
    stringsJoin sep (ps ++ [t]) = stringsJoin sep ps ++ sep :: t := by
  induction ps with
  | nil => exact absurd rfl hps
  | cons p ps ih =>
    cases ps with
    | nil => simp [stringsJoin]
    | cons q qs =>
      have := ih (by simp)
      simp only [List.cons_append] at this ⊢
      simp [stringsJoin, this]

theorem exists_last_sep (sep : Char) (s : Str) :
    sep ∉ s ∨ ∃ a t, s = a ++ sep :: t ∧ sep ∉ t := by
  induction s with
  | nil => left; simp
  | cons c s ih =>
    rcases ih with h | ⟨a, t, rfl, ht⟩
    · by_cases hc : c = sep
      · right; exact ⟨[], s, by simp [hc], h⟩
      · left; simp only [List.mem_cons, not_or]; exact ⟨fun e => hc e.symm, h⟩
    · right; exact ⟨c :: a, t, by simp, ht⟩

theorem stringsJoin_stringsSplit (sep : Char) (s : Str) :
    stringsJoin sep (stringsSplit sep s) = s := by
  induction s with
  | nil => rfl
  | cons c s ih =>
    by_cases h : c = sep
    · have hne := stringsSplit_ne_nil sep s
      rcases hs : stringsSplit sep s with _ | ⟨p, ps⟩
      · exact absurd hs hne
      · rw [hs] at ih
        simp [stringsSplit, h, hs, stringsJoin, ih]
    · have hne := stringsSplit_ne_nil sep s
      rcases hs : stringsSplit sep s with _ | ⟨p, ps⟩
      · exact absurd hs hne
      · rw [hs] at ih
        cases ps with
        | nil => simp [stringsSplit, h, hs, stringsJoin] at ih ⊢; exact ih
        | cons q qs => simp [stringsSplit, h, hs, stringsJoin] at ih ⊢; exact ih

/-- The last piece of a split. -/
theorem getLastD_split_append_sep (sep : Char) (a b : Str) :
    (stringsSplit sep (a ++ sep :: b)).getLastD [] = (stringsSplit sep b).getLastD [] := by
  rw [stringsSplit_append_sep]
  have hne := stringsSplit_ne_nil sep b
  rw [List.getLastD_eq_getLast?, List.getLastD_eq_getLast?, List.getLast?_append_of_ne_nil _ hne]

theorem getLastD_split_of_not_mem (sep : Char) (s : Str) (h : sep ∉ s) :
    (stringsSplit sep s).getLastD [] = s := by
  rw [stringsSplit_of_not_mem sep s h]; rfl

theorem startsWith_one (s : Str) (c : Char) :
    startsWith s [c] = true ↔ ∃ t, s = c :: t := by
  cases s with
  | nil => simp [startsWith, List.isPrefixOf]
  | cons d t =>
    constructor
    · intro h
      have hc : c = d := by simpa [startsWith, List.isPrefixOf] using h
      exact ⟨t, by rw [hc]⟩
    · rintro ⟨u, hu⟩
      have hc : d = c := (List.cons.inj hu).1
      simp [startsWith, List.isPrefixOf, hc]

theorem startsWith_two (s : Str) (c d : Char) :
    startsWith s [c, d] = true ↔ ∃ t, s = c :: d :: t := by
  rcases s with _ | ⟨x, _ | ⟨y, t⟩⟩
  · simp [startsWith, List.isPrefixOf]
  · simp [startsWith, List.isPrefixOf]
  · constructor
    · intro h
      have hc : c = x ∧ d = y := by simpa [startsWith, List.isPrefixOf] using h
      exact ⟨t, by rw [hc.1, hc.2]⟩
    · rintro ⟨u, hu⟩
      have h1 : x = c := (List.cons.inj hu).1
      have h2 : y = d := (List.cons.inj (List.cons.inj hu).2).1
      simp [startsWith, List.isPrefixOf, h1, h2]

/-- The last piece of `p ++ "/" ++ t` is the last piece of `t`. -/
theorem lastPiece_append_slash (p t : Str) :
    (stringsSplit '/' (p ++ '/' :: t)).getLastD [] = (stringsSplit '/' ('/' :: t)).getLastD [] := by
  rw [getLastD_split_append_sep]
  exact (getLastD_split_append_sep '/' [] t).symm

theorem lastSegment_congr (a b : Str)
    (h : (stringsSplit '/' a).getLastD [] = (stringsSplit '/' b).getLastD []) :
    lastSegment a = lastSegment b := by
  simp only [lastSegment, h]

/-- The last piece of `resolveURL baseURL r` is the last piece of `r`. -/
theorem lastPiece_resolveRelative (baseURL r : Str) :
    (stringsSplit '/' (resolveRelative baseURL r)).getLastD []
      = (stringsSplit '/' r).getLastD [] := by
  unfold resolveRelative
  dsimp only
  split
  · rw [List.append_assoc]
    exact getLastD_split_append_sep '/' _ r
  · rfl

theorem lastPiece_resolveURL (baseURL r : Str) :
    (stringsSplit '/' (resolveURL baseURL r)).getLastD [] = (stringsSplit '/' r).getLastD [] := by
  unfold resolveURL
  by_cases h2 : startsWith r ['/', '/'] = true
  · rw [if_pos h2]
    obtain ⟨t, rfl⟩ := (startsWith_two r '/' '/').1 h2
    split
    · exact lastPiece_append_slash _ _
    · exact lastPiece_append_slash _ _
  · rw [if_neg h2]
    by_cases h1 : startsWith r ['/'] = true
    · rw [if_pos h1]
      dsimp only
      split
      · obtain ⟨t, rfl⟩ := (startsWith_one r '/').1 h1
        exact lastPiece_append_slash _ _
      · exact lastPiece_resolveRelative baseURL r
    · rw [if_neg h1]
      exact lastPiece_resolveRelative baseURL r

theorem lastSegment_resolveURL (baseURL r : Str) :
    lastSegment (resolveURL baseURL r) = lastSegment r :=
  lastSegment_congr _ _ (lastPiece_resolveURL baseURL r)

theorem lastSegment_absoluteURL (url src : Str) :
    lastSegment (absoluteURL url src) = lastSegment src := by
  unfold absoluteURL
  split
  · exact lastSegment_resolveURL url src
  · rfl

theorem isValidWebpFile_congr (a b : Str) (h : lastSegment a = lastSegment b) :
    isValidWebpFile a = isValidWebpFile b := by
  simp only [isValidWebpFile, h]

/-- C10: resolution never changes classification.  For every base URL and every
reference, the resolved URL is valid exactly when the reference is, and both
have the same file name; hence what the loop of `main` classifies
(`absoluteURL`) is valid, and named, independently of the page URL. -/
theorem resolveURL_preserves_classification (baseURL r : Str) :
    isValidWebpFile (resolveURL baseURL r) = isValidWebpFile r ∧
    getFilenameFromURL (resolveURL baseURL r) = getFilenameFromURL r ∧
    (stringsSplit '/' (resolveURL baseURL r)).getLastD [] = (stringsSplit '/' r).getLastD [] ∧
    (∀ otherURL : Str,
      isValidWebpFile (absoluteURL baseURL r) = isValidWebpFile (absoluteURL otherURL r) ∧
      getFilenameFromURL (absoluteURL baseURL r) = getFilenameFromURL (absoluteURL otherURL r)) := by
  refine ⟨isValidWebpFile_congr _ _ (lastSegment_resolveURL baseURL r),
    lastSegment_resolveURL baseURL r, lastPiece_resolveURL baseURL r, fun o => ⟨?_, ?_⟩⟩
  · exact isValidWebpFile_congr _ _
      ((lastSegment_absoluteURL baseURL r).trans (lastSegment_absoluteURL o r).symm)
  · exact (lastSegment_absoluteURL baseURL r).trans (lastSegment_absoluteURL o r).symm

theorem dropWhile_ne_of_not_mem (sep : Char) (t : Str) (rest : Str) (h : sep ∉ t) :
    (t ++ sep :: rest).dropWhile (· ≠ sep) = sep :: rest := by
  induction t with
  | nil => exact List.dropWhile_cons_of_neg (by simp)
  | cons c t ih =>
    simp only [List.mem_cons, not_or] at h
    have hc : c ≠ sep := fun e => h.1 e.symm
    rw [List.cons_append, List.dropWhile_cons_of_pos (by simpa using hc)]
    exact ih h.2

theorem dropWhile_ne_all (sep : Char) (t : Str) (h : sep ∉ t) :
    t.dropWhile (· ≠ sep) = [] := by
  induction t with
  | nil => rfl
  | cons c t ih =>
    simp only [List.mem_cons, not_or] at h
    have hc : c ≠ sep := fun e => h.1 e.symm
    rw [List.dropWhile_cons_of_pos (by simpa using hc)]
    exact ih h.2

theorem join_init_split (baseURL : Str) :
    stringsJoin '/' ((stringsSplit '/' baseURL).take ((stringsSplit '/' baseURL).length - 1))
      = dropFinalSegment baseURL := by
  rcases exists_last_sep '/' baseURL with h | ⟨a, t, rfl, ht⟩
  · rw [stringsSplit_of_not_mem _ _ h]
    have hr : '/' ∉ baseURL.reverse := by simpa using h
    unfold dropFinalSegment
    rw [dropWhile_ne_all _ _ hr]
    rfl
  · rw [stringsSplit_append_sep, stringsSplit_of_not_mem _ _ ht]
    have hr : '/' ∉ t.reverse := by simpa using ht
    have e : (a ++ '/' :: t).reverse = t.reverse ++ '/' :: a.reverse := by simp
    unfold dropFinalSegment
    rw [e, dropWhile_ne_of_not_mem _ _ _ hr]
    simp [stringsJoin_stringsSplit]

theorem resolveRelative_eq (baseURL r : Str) :
    resolveRelative baseURL r = dropFinalSegment baseURL ++ ['/'] ++ r := by
  have hpos : 0 < (stringsSplit '/' baseURL).length :=
    List.length_pos.2 (stringsSplit_ne_nil _ _)
  unfold resolveRelative
  dsimp only
  rw [if_pos hpos, join_init_split]

theorem resolveURL_eq_resolveSpec (baseURL r : Str) :
    resolveURL baseURL r = resolveSpec baseURL r := by
  unfold resolveURL resolveSpec
  by_cases h2 : startsWith r ['/', '/'] = true
  · rw [if_pos h2, if_pos h2]
    split <;> rfl
  · rw [if_neg h2, if_neg h2]
    by_cases h1 : startsWith r ['/'] = true
    · rw [if_pos h1]
      dsimp only
      by_cases h3 : 3 ≤ (stringsSplit '/' baseURL).length
      · have h13 : startsWith r ['/'] = true ∧ 3 ≤ (stringsSplit '/' baseURL).length :=
          ⟨h1, h3⟩
        rw [if_pos h3, if_pos h13]
      · have h13 : ¬ (startsWith r ['/'] = true ∧ 3 ≤ (stringsSplit '/' baseURL).length) :=
          fun h => h3 h.2
        rw [if_neg h3, if_neg h13, resolveRelative_eq]
    · have h13 : ¬ (startsWith r ['/'] = true ∧ 3 ≤ (stringsSplit '/' baseURL).length) :=
        fun h => h1 h.1
      rw [if_neg h1, if_neg h13, resolveRelative_eq]

/-- C5: `resolveURL` is the three-case resolver of the specification, on every
base URL and every reference: scheme-relative references get `https:` when the
base starts with `https:` and `http:` otherwise; site-root-relative references
against a base of at least three segments get the first and the third segment;
every other reference replaces the final segment of the base. -/
theorem resolveURL_three_cases :
    (∀ baseURL r : Str, resolveURL baseURL r = resolveSpec baseURL r) ∧
    resolveURL "https://site.com/a/b".toList "/x/1.webp".toList
      = "https://site.com/x/1.webp".toList ∧
    resolveURL "https://site.com/page".toList "1.webp".toList
      = "https://site.com/1.webp".toList ∧
    dropFinalSegment "https://site.com/page".toList = "https://site.com".toList :=
  ⟨resolveURL_eq_resolveSpec, by decide, by decide, by decide⟩

theorem eq_of_append_sep_eq (sep : Char) :
    ∀ (a b x y : Str), sep ∉ a → sep ∉ b → a ++ sep :: x = b ++ sep :: y → a = b
  | [], [], _, _, _, _, _ => rfl
  | [], d :: b, x, y, _, hb, h => by
    simp only [List.nil_append, List.cons_append, List.cons.injEq] at h
    exact absurd (List.mem_cons.2 (Or.inl h.1)) hb
  | c :: a, [], x, y, ha, _, h => by
    simp only [List.nil_append, List.cons_append, List.cons.injEq] at h
    exact absurd (List.mem_cons.2 (Or.inl h.1.symm)) ha
  | c :: a, d :: b, x, y, ha, hb, h => by
    simp only [List.cons_append, List.cons.injEq] at h
    simp only [List.mem_cons, not_or] at ha hb
    rw [h.1, eq_of_append_sep_eq sep a b x y ha.2 hb.2 h.2]

theorem startsWith_iff (s p : Str) : startsWith s p = true ↔ ∃ t, s = p ++ t := by
  unfold startsWith
  rw [List.isPrefixOf_iff_prefix]
  constructor
  · rintro ⟨t, ht⟩; exact ⟨t, ht.symm⟩
  · rintro ⟨t, ht⟩; exact ⟨t, ht.symm⟩

theorem startsWith_https_iff (scheme rest : Str) (hs : ':' ∉ scheme) :
    startsWith (scheme ++ ':' :: rest) "https:".toList = true ↔ scheme = "https".toList := by
  rw [startsWith_iff]
  constructor
  · rintro ⟨t, ht⟩
    have e : scheme ++ ':' :: rest = "https".toList ++ ':' :: t := by rw [ht]; rfl
    exact eq_of_append_sep_eq ':' _ _ _ _ hs (by decide) e
  · rintro rfl
    exact ⟨rest, rfl⟩

/-- C6, as the code has it: for a base URL `scheme:rest` and a reference that
starts with `//`, the result is `https:` followed by the reference when the
scheme is `https`, and `http:` followed by the reference for every other
scheme; so it carries the scheme of the base exactly when that scheme is
`http` or `https`. -/
theorem resolveURL_scheme_relative (scheme rest r : Str)
    (hs : ':' ∉ scheme) (hr : startsWith r ['/', '/'] = true) :
    resolveURL (scheme ++ ':' :: rest) r
      = (if scheme = "https".toList then "https:".toList else "http:".toList) ++ r ∧
    (resolveURL (scheme ++ ':' :: rest) r = scheme ++ ':' :: r ↔
      scheme = "http".toList ∨ scheme = "https".toList) := by
  have key : resolveURL (scheme ++ ':' :: rest) r
      = (if scheme = "https".toList then "https:".toList else "http:".toList) ++ r := by
    unfold resolveURL
    rw [if_pos hr]
    by_cases h : scheme = "https".toList
    · rw [if_pos ((startsWith_https_iff scheme rest hs).2 h), if_pos h]
    · rw [if_neg (fun e => h ((startsWith_https_iff scheme rest hs).1 e)), if_neg h]
  refine ⟨key, ?_⟩
  rw [key]
  by_cases h : scheme = "https".toList
  · rw [if_pos h]
    subst h
    constructor
    · intro _; exact Or.inr rfl
    · intro _; rfl
  · rw [if_neg h]
    constructor
    · intro e
      have e2 : "http".toList ++ ':' :: r = scheme ++ ':' :: r := e
      exact Or.inl (eq_of_append_sep_eq ':' _ _ _ _ hs (by decide) e2.symm)
    · rintro (rfl | rfl)
      · rfl
      · exact absurd rfl h

theorem resolveURL_scheme_relative_witness :
    resolveURL ("ftp".toList ++ ':' :: "//h/p".toList) "//c/1.webp".toList
      = (if "ftp".toList = "https".toList then "https:".toList else "http:".toList)
          ++ "//c/1.webp".toList ∧
    (resolveURL ("ftp".toList ++ ':' :: "//h/p".toList) "//c/1.webp".toList
        = "ftp".toList ++ ':' :: "//c/1.webp".toList ↔
      "ftp".toList = "http".toList ∨ "ftp".toList = "https".toList) :=
  resolveURL_scheme_relative "ftp".toList "//h/p".toList "//c/1.webp".toList
    (by decide) (by decide)

/-- C6 as stated fails: against the base `ftp://h/p` the reference `//c/1.webp`
resolves to `http://c/1.webp`, which does not carry the scheme `ftp`. -/
theorem resolveURL_scheme_relative_counterexample :
    ¬ (∀ scheme rest r : Str, ':' ∉ scheme → startsWith r ['/', '/'] = true →
        resolveURL (scheme ++ ':' :: rest) r = scheme ++ ':' :: r) := by
  intro h
  have := h "ftp".toList "//h/p".toList "//c/1.webp".toList (by decide) (by decide)
  revert this
  decide

/-- C7 on the code: against the empty base URL the split has one (empty)
piece, the test `len(baseParts) > 0` succeeds, and the result is `/` followed by
the reference (`http:` followed by it when it starts with `//`); the final
`return relativeURL` is never reached, and `1.webp` comes back as `/1.webp`. -/
theorem resolveURL_empty_base :
    (∀ r : Str, resolveURL [] r
      = if startsWith r ['/', '/'] then "http:".toList ++ r else '/' :: r) ∧
    resolveURL [] "1.webp".toList = "/1.webp".toList ∧
    resolveURL [] "1.webp".toList ≠ "1.webp".toList ∧
    (∀ baseURL : Str, 0 < (stringsSplit '/' baseURL).length) := by
  refine ⟨fun r => ?_, by decide, by decide,
    fun b => List.length_pos.2 (stringsSplit_ne_nil _ _)⟩
  rw [resolveURL_eq_resolveSpec]
  unfold resolveSpec
  by_cases h2 : startsWith r ['/', '/'] = true
  · rw [if_pos h2, if_pos h2]
    rfl
  · have h13 : ¬ (startsWith r ['/'] = true ∧ 3 ≤ (stringsSplit '/' ([] : Str)).length) :=
      fun h => absurd h.2 (by decide)
    rw [if_neg h2, if_neg h2, if_neg h13]
    rfl

/-- C4: `sanitizeFilename` keeps the length, leaves none of the nine characters
`<`, `>`, `:`, `"`, `/`, `\`, `|`, `?`, `*`, puts `_` at every position that held
one of them and keeps every other character where it was. -/
theorem sanitizeFilename_spec (t : Str) :
    (sanitizeFilename t).length = t.length ∧
    (∀ c ∈ sanitizeFilename t, c ∉ ['<', '>', ':', '"', '/', '\\', '|', '?', '*']) ∧
    (∀ (i : Nat) (c : Char), t[i]? = some c →
      (c ∈ ['<', '>', ':', '"', '/', '\\', '|', '?', '*'] → (sanitizeFilename t)[i]? = some '_') ∧
      (c ∉ ['<', '>', ':', '"', '/', '\\', '|', '?', '*'] → (sanitizeFilename t)[i]? = some c)) ∧
    sanitizeFilename "A/B:C".toList = "A_B_C".toList := by
  refine ⟨by simp [sanitizeFilename], ?_, ?_, by decide⟩
  · intro c hc
    simp only [sanitizeFilename, List.mem_map] at hc
    obtain ⟨d, _, hd⟩ := hc
    by_cases hf : d ∈ forbiddenChars
    · rw [if_pos hf] at hd
      subst hd
      decide
    · rw [if_neg hf] at hd
      subst hd
      exact hf
  · intro i c hc
    constructor
    · intro hf
      have hf2 : c ∈ forbiddenChars := hf
      simp [sanitizeFilename, hc, hf2]
    · intro hf
      have hf2 : c ∉ forbiddenChars := hf
      simp [sanitizeFilename, hc, hf2]

theorem takeWhile_ne_of_not_mem (sep : Char) (t rest : Str) (h : sep ∉ t) :
    (t ++ sep :: rest).takeWhile (· ≠ sep) = t := by
  induction t with
  | nil => exact List.takeWhile_cons_of_neg (by simp)
  | cons c t ih =>
    simp only [List.mem_cons, not_or] at h
    have hc : c ≠ sep := fun e => h.1 e.symm
    rw [List.cons_append, List.takeWhile_cons_of_pos (by simpa using hc), ih h.2]

theorem takeWhile_ne_all (sep : Char) (t : Str) (h : sep ∉ t) :
    t.takeWhile (· ≠ sep) = t := by
  induction t with
  | nil => rfl
  | cons c t ih =>
    simp only [List.mem_cons, not_or] at h
    have hc : c ≠ sep := fun e => h.1 e.symm
    rw [List.takeWhile_cons_of_pos (by simpa using hc), ih h.2]

theorem not_mem_takeWhile_ne (sep : Char) (t : Str) : sep ∉ t.takeWhile (· ≠ sep) := by
  intro h
  have := List.mem_takeWhile_imp h
  simp at this

theorem lastPiece_eq_afterLastSlash (u : Str) :
    (stringsSplit '/' u).getLastD [] = afterLastSlash u := by
  unfold afterLastSlash
  rcases exists_last_sep '/' u with h | ⟨a, t, rfl, ht⟩
  · have hr : '/' ∉ u.reverse := by simpa using h
    rw [getLastD_split_of_not_mem _ _ h, takeWhile_ne_all _ _ hr, List.reverse_reverse]
  · have hr : '/' ∉ t.reverse := by simpa using ht
    have e : (a ++ '/' :: t).reverse = t.reverse ++ '/' :: a.reverse := by simp
    rw [getLastD_split_append_sep, getLastD_split_of_not_mem _ _ ht, e,
      takeWhile_ne_of_not_mem _ _ _ hr, List.reverse_reverse]

theorem cut_at_index (sep : Char) (s : Str) :
    (match stringsIndex sep s with
      | some idx => s.take idx
      | none => s) = s.takeWhile (· ≠ sep) := by
  induction s with
  | nil => rfl
  | cons c s ih =>
    by_cases hc : c = sep
    · rw [List.takeWhile_cons_of_neg (by simpa using hc)]
      simp [stringsIndex, hc]
    · rw [List.takeWhile_cons_of_pos (by simpa using hc)]
      unfold stringsIndex
      rw [if_neg hc]
      cases hi : stringsIndex sep s with
      | none => rw [hi] at ih; simp only [Option.map_none'] ; rw [← ih]
      | some i => rw [hi] at ih; simp only [Option.map_some', List.take_succ_cons]; rw [← ih]

theorem lastSegment_eq_segmentOf (u : Str) : lastSegment u = segmentOf u := by
  unfold lastSegment segmentOf cutAtQuery
  dsimp only
  rw [cut_at_index, lastPiece_eq_afterLastSlash]

theorem char_eq_of_toNat (c : Char) (n : Nat) (h : c.toNat = n) : c = Char.ofNat n := by
  rw [← h, Char.ofNat_toNat]

theorem toNat_ofNat_small (n : Nat) (h : n ≤ 122) : (Char.ofNat n).toNat = n := by
  interval_cases n <;> rfl

theorem unicodeToLower_eq_letter (c x : Char) (hx1 : 97 ≤ x.toNat) (hx2 : x.toNat ≤ 122)
    (hi : x ≠ 'i') (hk : x ≠ 'k') :
    unicodeToLower c = x ↔ c = x ∨ c = Char.ofNat (x.toNat - 32) := by
  constructor
  · intro h
    unfold unicodeToLower at h
    split_ifs at h with h1 h2 h3
    · right
      have e := congrArg Char.toNat h
      rw [toNat_ofNat_small _ (by omega)] at e
      exact char_eq_of_toNat c _ (by omega)
    · exact absurd h.symm hi
    · exact absurd h.symm hk
    · exact Or.inl h
  · rintro (rfl | rfl)
    · unfold unicodeToLower
      rw [if_neg (by omega), if_neg (by omega), if_neg (by omega)]
    · have e : (Char.ofNat (x.toNat - 32)).toNat = x.toNat - 32 :=
        toNat_ofNat_small _ (by omega)
      unfold unicodeToLower
      rw [e, if_pos (by omega)]
      have e2 : x.toNat - 32 + 32 = x.toNat := by omega
      rw [e2, Char.ofNat_toNat]

theorem unicodeToLower_eq_dot (c : Char) : unicodeToLower c = '.' ↔ c = '.' := by
  constructor
  · intro h
    unfold unicodeToLower at h
    split_ifs at h with h1 h2 h3
    · have e := congrArg Char.toNat h
      rw [toNat_ofNat_small _ (by omega)] at e
      have : ('.' : Char).toNat = 46 := rfl
      omega
    · exact absurd h (by decide)
    · exact absurd h (by decide)
    · exact h
  · rintro rfl; decide

theorem lower_w (c : Char) : unicodeToLower c = 'w' ↔ c = 'w' ∨ c = 'W' :=
  unicodeToLower_eq_letter c 'w' (by decide) (by decide) (by decide) (by decide)

theorem lower_e (c : Char) : unicodeToLower c = 'e' ↔ c = 'e' ∨ c = 'E' :=
  unicodeToLower_eq_letter c 'e' (by decide) (by decide) (by decide) (by decide)

theorem lower_b (c : Char) : unicodeToLower c = 'b' ↔ c = 'b' ∨ c = 'B' :=
  unicodeToLower_eq_letter c 'b' (by decide) (by decide) (by decide) (by decide)

theorem lower_p (c : Char) : unicodeToLower c = 'p' ↔ c = 'p' ∨ c = 'P' :=
  unicodeToLower_eq_letter c 'p' (by decide) (by decide) (by decide) (by decide)

theorem endsWith_iff (s suffix : Str) : endsWith s suffix = true ↔ ∃ d, s = d ++ suffix := by
  unfold endsWith
  rw [List.isPrefixOf_iff_prefix, List.reverse_prefix]
  constructor
  · rintro ⟨d, hd⟩; exact ⟨d, hd.symm⟩
  · rintro ⟨d, hd⟩; exact ⟨d, hd.symm⟩

theorem stringsTrimSuffix_append (d e : Str) : stringsTrimSuffix (d ++ e) e = d := by
  unfold stringsTrimSuffix
  rw [if_pos ((endsWith_iff _ _).2 ⟨d, rfl⟩)]
  simp

theorem isDecimalDigit_iff (c : Char) : isDecimalDigit c = true ↔ c ∈ decimalDigits := by
  unfold isDecimalDigit
  rw [decide_eq_true_iff]
  constructor
  · rintro ⟨h1, h2⟩
    have hc := char_eq_of_toNat c c.toNat rfl
    generalize c.toNat = n at h1 h2 hc
    subst hc
    interval_cases n <;> decide
  · intro h
    simp only [decimalDigits, List.mem_cons, List.mem_singleton, List.not_mem_nil, or_false] at h
    rcases h with rfl | rfl | rfl | rfl | rfl | rfl | rfl | rfl | rfl | rfl <;> decide

theorem matchDigitsOnly_iff (s : Str) :
    matchDigitsOnly s = true ↔ s ≠ [] ∧ ∀ c ∈ s, c ∈ decimalDigits := by
  unfold matchDigitsOnly
  simp only [Bool.and_eq_true, Bool.not_eq_true', List.isEmpty_eq_false, List.all_eq_true,
    isDecimalDigit_iff]

/-- The extension test of `isValidWebpFile`. -/
theorem endsWith_lower_dotWebp (s : Str) :
    endsWith (stringsToLower s) dotWebp = true ↔
      ∃ (d : Str) (c1 c2 c3 c4 : Char), s = d ++ ['.', c1, c2, c3, c4] ∧
        (c1 = 'w' ∨ c1 = 'W') ∧ (c2 = 'e' ∨ c2 = 'E') ∧ (c3 = 'b' ∨ c3 = 'B') ∧
        (c4 = 'p' ∨ c4 = 'P') := by
  rw [endsWith_iff]
  unfold stringsToLower dotWebp
  constructor
  · rintro ⟨l, hl⟩
    obtain ⟨d, e, rfl, -, he⟩ := List.map_eq_append_iff.1 hl
    rcases e with _ | ⟨c0, _ | ⟨c1, _ | ⟨c2, _ | ⟨c3, _ | ⟨c4, _ | ⟨c5, e⟩⟩⟩⟩⟩⟩ <;>
      simp only [List.map_cons, List.map_nil, List.cons.injEq, and_true, reduceCtorEq,
        and_false] at he
    obtain ⟨h0, h1, h2, h3, h4⟩ := he
    rw [unicodeToLower_eq_dot] at h0
    subst h0
    exact ⟨d, c1, c2, c3, c4, rfl, (lower_w _).1 h1, (lower_e _).1 h2, (lower_b _).1 h3,
      (lower_p _).1 h4⟩
  · rintro ⟨d, c1, c2, c3, c4, rfl, h1, h2, h3, h4⟩
    refine ⟨d.map unicodeToLower, ?_⟩
    simp only [List.map_append, List.map_cons, List.map_nil, (lower_w _).2 h1, (lower_e _).2 h2,
      (lower_b _).2 h3, (lower_p _).2 h4, (unicodeToLower_eq_dot _).2 rfl]

theorem filepathExt_dot_letters (d : Str) (c1 c2 c3 c4 : Char)
    (h1 : c1 = 'w' ∨ c1 = 'W') (h2 : c2 = 'e' ∨ c2 = 'E') (h3 : c3 = 'b' ∨ c3 = 'B')
    (h4 : c4 = 'p' ∨ c4 = 'P') :
    filepathExt (d ++ ['.', c1, c2, c3, c4]) = ['.', c1, c2, c3, c4] := by
  have e : (d ++ ['.', c1, c2, c3, c4]).reverse = c4 :: c3 :: c2 :: c1 :: '.' :: d.reverse := by
    simp
  unfold filepathExt
  rw [e]
  rcases h1 with rfl | rfl <;> rcases h2 with rfl | rfl <;> rcases h3 with rfl | rfl <;>
    rcases h4 with rfl | rfl <;> simp [extScan]

theorem isValidWebpFile_iff_shape (u : Str) :
    isValidWebpFile u = true ↔ IsDigitsDotWebp (lastSegment u) := by
  unfold isValidWebpFile IsDigitsDotWebp
  dsimp only
  constructor
  · intro h
    by_cases hs : endsWith (stringsToLower (lastSegment u)) dotWebp = true
    · obtain ⟨d, c1, c2, c3, c4, hd, h1, h2, h3, h4⟩ := (endsWith_lower_dotWebp _).1 hs
      rw [hd] at h
      rw [if_neg (by simpa using (endsWith_lower_dotWebp _).2 ⟨d, c1, c2, c3, c4, rfl, h1, h2, h3, h4⟩),
        filepathExt_dot_letters d c1 c2 c3 c4 h1 h2 h3 h4, stringsTrimSuffix_append,
        matchDigitsOnly_iff] at h
      exact ⟨d, c1, c2, c3, c4, hd, h.1, h.2, h1, h2, h3, h4⟩
    · rw [if_pos (by simpa using hs)] at h
      exact absurd h (by decide)
  · rintro ⟨d, c1, c2, c3, c4, hd, hne, hdig, h1, h2, h3, h4⟩
    rw [hd]
    rw [if_neg (by simpa using (endsWith_lower_dotWebp _).2 ⟨d, c1, c2, c3, c4, rfl, h1, h2, h3, h4⟩),
      filepathExt_dot_letters d c1 c2 c3 c4 h1 h2 h3 h4, stringsTrimSuffix_append,
      matchDigitsOnly_iff]
    exact ⟨hne, hdig⟩

theorem digitChar_mem (m : Nat) (h : m < 10) : Nat.digitChar m ∈ decimalDigits := by
  interval_cases m <;> decide

theorem digitChar_value (m : Nat) (h : m < 10) : (Nat.digitChar m).toNat - 48 = m := by
  interval_cases m <;> rfl

theorem formatIntAux_digits (fuel : Nat) : ∀ n c, c ∈ formatIntAux fuel n → c ∈ decimalDigits := by
  induction fuel with
  | zero => intro n c h; simp [formatIntAux] at h
  | succ f ih =>
    intro n c h
    unfold formatIntAux at h
    split_ifs at h with hn
    · rw [List.mem_singleton] at h
      rw [h]; exact digitChar_mem n hn
    · rw [List.mem_append, List.mem_singleton] at h
      rcases h with h | h
      · exact ih _ _ h
      · rw [h]; exact digitChar_mem _ (Nat.mod_lt _ (by decide))

theorem digitsValue_append_singleton (s : Str) (c : Char) :
    digitsValue (s ++ [c]) = 10 * digitsValue s + (c.toNat - 48) := by
  simp [digitsValue, List.foldl_append]

theorem digitsValue_formatIntAux (fuel : Nat) :
    ∀ n, n < fuel → digitsValue (formatIntAux fuel n) = n := by
  induction fuel with
  | zero => intro n h; omega
  | succ f ih =>
    intro n h
    unfold formatIntAux
    split_ifs with hn
    · simp [digitsValue, digitChar_value n hn]
    · rw [digitsValue_append_singleton, ih (n / 10) (by omega),
        digitChar_value _ (Nat.mod_lt _ (by decide))]
      omega

theorem formatInt_injective (a b : Nat) (h : formatInt a = formatInt b) : a = b := by
  have ha := digitsValue_formatIntAux (a + 1) a (by omega)
  have hb := digitsValue_formatIntAux (b + 1) b (by omega)
  unfold formatInt at h
  rw [h] at ha
  omega

theorem slash_not_mem_formatInt (n : Nat) : '/' ∉ formatInt n := by
  intro h
  have := formatIntAux_digits _ _ _ h
  revert this
  decide

theorem startsWith_append_of_ne_nil (pre rest : Str) (h : pre ≠ []) (c : Char) :
    startsWith (pre ++ rest) [c] = startsWith pre [c] := by
  cases pre with
  | nil => exact absurd rfl h
  | cons d t => simp [startsWith, List.isPrefixOf]

theorem cleanStep_push (rooted : Bool) (stack : List Str) (name : Str)
    (h0 : name ≠ []) (h1 : name ≠ ['.']) (h2 : name ≠ ['.', '.']) :
    cleanStep rooted stack name = name :: stack := by
  unfold cleanStep
  rw [if_neg (by simp [h0, h1]), if_neg h2]

/-- The clean form of a path whose last element is an ordinary name. -/
theorem filepathClean_append_name (pre name : Str) (hpre : pre ≠ [])
    (hs : '/' ∉ name) (h0 : name ≠ []) (h1 : name ≠ ['.']) (h2 : name ≠ ['.', '.']) :
    filepathClean (pre ++ '/' :: name) = dirPrefix pre ++ name := by
  have hstack : (stringsSplit '/' (pre ++ '/' :: name)).foldl
      (cleanStep (startsWith (pre ++ '/' :: name) ['/'])) [] = name :: cleanStack pre := by
    rw [stringsSplit_append_sep, stringsSplit_of_not_mem _ _ hs, List.foldl_append,
      startsWith_append_of_ne_nil _ _ hpre]
    simp only [List.foldl_cons, List.foldl_nil]
    rw [cleanStep_push _ _ _ h0 h1 h2]
    rfl
  unfold filepathClean
  rw [if_neg (by simp)]
  dsimp only
  rw [hstack, startsWith_append_of_ne_nil _ _ hpre]
  unfold dirPrefix
  have hjoin : stringsJoin '/' (name :: cleanStack pre).reverse
      = (if cleanStack pre = [] then [] else stringsJoin '/' (cleanStack pre).reverse ++ ['/'])
          ++ name := by
    by_cases hS : cleanStack pre = []
    · rw [hS, if_pos rfl]; rfl
    · rw [if_neg hS, List.reverse_cons,
        stringsJoin_append_singleton _ _ (by simpa using hS)]
      simp
  rw [hjoin, if_neg]
  · simp
  · cases name with
    | nil => exact absurd rfl h0
    | cons c t => simp

theorem dot_or_self_ne_nil (out : Str) : (if out = [] then ['.'] else out) ≠ [] := by
  by_cases h : out = []
  · rw [if_pos h]; simp
  · rw [if_neg h]; exact h

theorem filepathClean_ne_nil (p : Str) : filepathClean p ≠ [] := by
  unfold filepathClean
  by_cases h1 : p = []
  · rw [if_pos h1]; simp
  · rw [if_neg h1]
    exact dot_or_self_ne_nil _

theorem filepathDir_ne_nil (p : Str) : filepathDir p ≠ [] := filepathClean_ne_nil _

theorem filepathJoin_pair (dir name : Str) (h : dir ≠ []) :
    filepathJoin [dir, name] = filepathClean (dir ++ '/' :: name) := by
  unfold filepathJoin
  rw [List.dropWhile_cons_of_neg (by simpa using h)]
  rfl

theorem filepathBase_cases (p : Str) :
    filepathBase p = ['/'] ∨ ('/' ∉ filepathBase p ∧ filepathBase p ≠ []) := by
  unfold filepathBase
  by_cases h1 : p = []
  · rw [if_pos h1]; right; decide
  · rw [if_neg h1]
    dsimp only
    split
    · left; rfl
    · rename_i h2
      right
      refine ⟨?_, h2⟩
      rw [List.mem_reverse]
      exact not_mem_takeWhile_ne _ _

theorem extScan_spec (rev : Str) : ∀ acc : Str,
    extScan rev acc = [] ∨
      ∃ r1 r2, rev = r1 ++ '.' :: r2 ∧ extScan rev acc = '.' :: (r1.reverse ++ acc) := by
  induction rev with
  | nil => intro acc; left; rfl
  | cons c rev ih =>
    intro acc
    unfold extScan
    split_ifs with h1 h2
    · left; rfl
    · right; exact ⟨[], rev, by rw [h2]; rfl, rfl⟩
    · rcases ih (c :: acc) with h | ⟨r1, r2, hr, he⟩
      · left; exact h
      · right
        exact ⟨c :: r1, r2, by rw [hr]; rfl, by rw [he]; simp⟩

theorem filepathExt_suffix (s : Str) : ∃ b, s = b ++ filepathExt s := by
  unfold filepathExt
  rcases extScan_spec s.reverse [] with h | ⟨r1, r2, hr, he⟩
  · exact ⟨s, by rw [h]; simp⟩
  · refine ⟨r2.reverse, ?_⟩
    rw [he]
    have := congrArg List.reverse hr
    simpa using this

/-- The candidates of a path whose last element is not the root: what
`filepath.Clean` writes for the directory, then the new file name. -/
theorem candidateOf_eq (filePath : Str) (hs : '/' ∉ filepathBase filePath) (k : Nat) :
    candidateOf filePath k = dirPrefix (filepathDir filePath) ++
      (stringsTrimSuffix (filepathBase filePath) (filepathExt (filepathBase filePath))
        ++ '_' :: formatInt k ++ filepathExt (filepathBase filePath)) := by
  obtain ⟨b, hb⟩ := filepathExt_suffix (filepathBase filePath)
  have hdir := filepathDir_ne_nil filePath
  unfold candidateOf candidatePath
  rw [filepathJoin_pair _ _ hdir]
  have htrim : stringsTrimSuffix (filepathBase filePath) (filepathExt (filepathBase filePath))
      = b := by
    have := stringsTrimSuffix_append b (filepathExt (filepathBase filePath))
    rw [← hb] at this
    exact this
  rw [htrim]
  rw [hb] at hs
  simp only [List.mem_append, not_or] at hs
  have hmem : '_' ∈ b ++ '_' :: formatInt k ++ filepathExt (filepathBase filePath) := by simp
  rw [filepathClean_append_name _ _ hdir]
  · simp only [List.mem_append, List.mem_cons, not_or]
    exact ⟨⟨hs.1, by decide, slash_not_mem_formatInt k⟩, hs.2⟩
  · intro h; rw [h] at hmem; simp at hmem
  · intro h; rw [h] at hmem; revert hmem; decide
  · intro h; rw [h] at hmem; revert hmem; decide

/-- Every path tried for `filePath` is a fixed text, the counter in decimal, a
fixed text. -/
theorem candidateOf_shape (filePath : Str) :
    ∃ P B : Str, ∀ k, candidateOf filePath k = P ++ formatInt k ++ B := by
  have hdir := filepathDir_ne_nil filePath
  rcases filepathBase_cases filePath with hroot | ⟨hs, -⟩
  · refine ⟨dirPrefix (filepathDir filePath ++ ['/']) ++ ['_'], [], fun k => ?_⟩
    unfold candidateOf candidatePath
    rw [filepathJoin_pair _ _ hdir, hroot]
    have e1 : filepathExt ['/'] = [] := by decide
    have e2 : stringsTrimSuffix ['/'] [] = ['/'] := by decide
    rw [e1, e2]
    have e3 : filepathDir filePath ++ '/' :: (['/'] ++ '_' :: formatInt k ++ [])
        = (filepathDir filePath ++ ['/']) ++ '/' :: ('_' :: formatInt k) := by simp
    rw [e3, filepathClean_append_name _ _ (by simp) _ (by simp) _ _]
    · simp
    · simp only [List.mem_cons, not_or]
      exact ⟨by decide, slash_not_mem_formatInt k⟩
    · intro h; cases h
    · intro h
      have := (List.cons.inj h).1
      revert this; decide
  · refine ⟨dirPrefix (filepathDir filePath)
        ++ stringsTrimSuffix (filepathBase filePath) (filepathExt (filepathBase filePath))
        ++ ['_'], filepathExt (filepathBase filePath), fun k => ?_⟩
    rw [candidateOf_eq filePath hs k]
    simp

theorem candidateOf_injective (filePath : Str) (j k : Nat)
    (h : candidateOf filePath j = candidateOf filePath k) : j = k := by
  obtain ⟨P, B, hshape⟩ := candidateOf_shape filePath
  rw [hshape j, hshape k, List.append_assoc, List.append_assoc] at h
  exact formatInt_injective _ _ (List.append_cancel_right (List.append_cancel_left h))

/-- On a filesystem of `n` paths one of the first `n + 1` candidates is free. -/
theorem exists_free_candidate (files : List Str) (filePath : Str) :
    ∃ k, 1 ≤ k ∧ k ≤ files.length + 1 ∧ candidateOf filePath k ∉ files := by
  by_contra hcon
  push_neg at hcon
  have hnodup : ((List.range (files.length + 1)).map
      (fun i => candidateOf filePath (i + 1))).Nodup := by
    refine List.Nodup.map ?_ (List.nodup_range _)
    intro a b hab
    have := candidateOf_injective filePath _ _ hab
    omega
  have hsub : (List.range (files.length + 1)).map (fun i => candidateOf filePath (i + 1))
      ⊆ files := by
    intro q hq
    rw [List.mem_map] at hq
    obtain ⟨i, hi, rfl⟩ := hq
    rw [List.mem_range] at hi
    exact hcon (i + 1) (by omega) (by omega)
  have hlen := (List.subperm_of_subset hnodup hsub).length_le
  simp at hlen

/-- The loop returns the first free candidate, given fuel to reach it. -/
theorem uniqueLoop_eq (pathExists : Str → Bool) (dir basename ext : Str) :
    ∀ (fuel counter k : Nat), counter ≤ k → k < counter + fuel →
      pathExists (candidatePath dir basename ext k) = false →
      (∀ j, counter ≤ j → j < k → pathExists (candidatePath dir basename ext j) = true) →
      uniqueLoop pathExists dir basename ext fuel counter
        = some (candidatePath dir basename ext k) := by
  intro fuel
  induction fuel with
  | zero => intro counter k h1 h2; omega
  | succ f ih =>
    intro counter k h1 h2 hk hlow
    unfold uniqueLoop
    dsimp only
    by_cases hc : counter = k
    · subst hc
      rw [hk]; rfl
    · rw [hlow counter (le_refl _) (by omega)]
      simp only [Bool.not_true, Bool.false_eq_true, if_false]
      exact ih (counter + 1) k (by omega) (by omega) hk (fun j hj1 hj2 => hlow j (by omega) hj2)

theorem uniqueLoop_free (pathExists : Str → Bool) (dir basename ext : Str) :
    ∀ (fuel counter : Nat) (q : Str),
      uniqueLoop pathExists dir basename ext fuel counter = some q → pathExists q = false := by
  intro fuel
  induction fuel with
  | zero => intro counter q h; simp [uniqueLoop] at h
  | succ f ih =>
    intro counter q h
    unfold uniqueLoop at h
    dsimp only at h
    split_ifs at h with hc
    · have := Option.some.inj h
      subst this
      simpa using hc
    · exact ih _ _ h

theorem getUniqueFilename_free (pathExists : Str → Bool) (fuel : Nat) (p q : Str)
    (h : getUniqueFilename pathExists fuel p = some q) : pathExists q = false := by
  unfold getUniqueFilename at h
  split_ifs at h with hc
  · have := Option.some.inj h
    subst this
    simpa using hc
  · exact uniqueLoop_free _ _ _ _ _ _ _ h

theorem exists_least_free (pathExists : Str → Bool) (p : Str) (k : Nat) (hk1 : 1 ≤ k)
    (hk : pathExists (candidateOf p k) = false) :
    ∃ k0, 1 ≤ k0 ∧ k0 ≤ k ∧ pathExists (candidateOf p k0) = false ∧
      ∀ j, 1 ≤ j → j < k0 → pathExists (candidateOf p j) = true := by
  classical
  have hex : ∃ n, 1 ≤ n ∧ pathExists (candidateOf p n) = false := ⟨k, hk1, hk⟩
  refine ⟨Nat.find hex, (Nat.find_spec hex).1, Nat.find_min' hex ⟨hk1, hk⟩,
    (Nat.find_spec hex).2, fun j hj1 hj2 => ?_⟩
  have := Nat.find_min hex hj2
  simp only [not_and, Bool.not_eq_false] at this
  exact this hj1

theorem getUniqueFilename_eq_least (pathExists : Str → Bool) (p : Str) (k0 fuel : Nat)
    (hp : pathExists p = true) (h1 : 1 ≤ k0) (hfuel : k0 ≤ fuel)
    (hfree : pathExists (candidateOf p k0) = false)
    (hlow : ∀ j, 1 ≤ j → j < k0 → pathExists (candidateOf p j) = true) :
    getUniqueFilename pathExists fuel p = some (candidateOf p k0) := by
  unfold getUniqueFilename
  rw [hp]
  simp only [Bool.not_true, Bool.false_eq_true, if_false]
  exact uniqueLoop_eq pathExists _ _ _ fuel 1 k0 h1 (by omega) hfree hlow


/-- C1: `isValidWebpFile u` holds exactly when the segment of `u` (the text
after its last `/`, cut at its first `?`) is a non-empty run of the digits 0-9
followed by a dot and the letters `w`, `e`, `b`, `p` in either case.  So
`https://x.com/a/007.webp` and `https://x.com/a/7.WEBP?x=1` qualify, and a URL
whose segment is `7a.webp`, `.webp`, `-7.webp` or has no dot does not. -/
theorem isValidWebpFile_spec :
    (∀ u : Str, isValidWebpFile u = true ↔ IsDigitsDotWebp (segmentOf u)) ∧
    isValidWebpFile "https://x.com/a/007.webp".toList = true ∧
    isValidWebpFile "https://x.com/a/7.WEBP?x=1".toList = true ∧
    (∀ u : Str, segmentOf u = "7a.webp".toList → isValidWebpFile u = false) ∧
    (∀ u : Str, segmentOf u = ".webp".toList → isValidWebpFile u = false) ∧
    (∀ u : Str, segmentOf u = "-7.webp".toList → isValidWebpFile u = false) ∧
    (∀ u : Str, '.' ∉ segmentOf u → isValidWebpFile u = false) := by
  have hseg : ∀ (u v : Str), segmentOf u = v → lastSegment v = v →
      isValidWebpFile u = isValidWebpFile v := by
    intro u v h1 h2
    apply isValidWebpFile_congr
    rw [lastSegment_eq_segmentOf, h1, h2]
  refine ⟨fun u => ?_, by decide, by decide, fun u h => ?_, fun u h => ?_, fun u h => ?_,
    fun u h => ?_⟩
  · rw [isValidWebpFile_iff_shape, lastSegment_eq_segmentOf]
  · rw [hseg u _ h (by decide)]; decide
  · rw [hseg u _ h (by decide)]; decide
  · rw [hseg u _ h (by decide)]; decide
  · rw [Bool.eq_false_iff]
    intro hv
    rw [isValidWebpFile_iff_shape, lastSegment_eq_segmentOf] at hv
    obtain ⟨d, c1, c2, c3, c4, hd, -⟩ := hv
    apply h
    rw [hd]
    simp

theorem shape_chars (s : Str) (h : IsDigitsDotWebp s) :
    ∀ c ∈ s, c ∈ decimalDigits ∨ c ∈ ['.', 'w', 'W', 'e', 'E', 'b', 'B', 'p', 'P'] := by
  obtain ⟨d, c1, c2, c3, c4, rfl, -, hdig, h1, h2, h3, h4⟩ := h
  intro c hc
  rw [List.mem_append] at hc
  rcases hc with hc | hc
  · exact Or.inl (hdig c hc)
  · right
    simp only [List.mem_cons, List.mem_singleton, List.not_mem_nil, or_false] at hc ⊢
    rcases hc with rfl | rfl | rfl | rfl | rfl
    · simp
    · rcases h1 with rfl | rfl <;> simp
    · rcases h2 with rfl | rfl <;> simp
    · rcases h3 with rfl | rfl <;> simp
    · rcases h4 with rfl | rfl <;> simp

theorem shape_not_mem (s : Str) (h : IsDigitsDotWebp s) (x : Char)
    (hx1 : x ∉ decimalDigits) (hx2 : x ∉ ['.', 'w', 'W', 'e', 'E', 'b', 'B', 'p', 'P']) :
    x ∉ s := by
  intro hmem
  rcases shape_chars s h x hmem with h1 | h1
  · exact hx1 h1
  · exact hx2 h1

theorem shape_length (s : Str) (h : IsDigitsDotWebp s) : 6 ≤ s.length := by
  obtain ⟨d, c1, c2, c3, c4, rfl, hne, -⟩ := h
  have : 0 < d.length := List.length_pos.2 hne
  simp
  omega

theorem slash_not_mem_sanitize (t : Str) : '/' ∉ sanitizeFilename t := by
  intro h
  simp only [sanitizeFilename, List.mem_map] at h
  obtain ⟨d, _, hd⟩ := h
  by_cases hf : d ∈ forbiddenChars
  · rw [if_pos hf] at hd
    revert hd; decide
  · rw [if_neg hf] at hd
    subst hd
    exact hf (by decide)

theorem sanitize_ne_nil (t : Str) (h : t ≠ []) : sanitizeFilename t ≠ [] := by
  unfold sanitizeFilename
  simpa using h

theorem startsWith_slash_false (d : Str) (hs : '/' ∉ d) : startsWith d ['/'] = false := by
  rw [Bool.eq_false_iff]
  intro h
  obtain ⟨t, rfl⟩ := (startsWith_one d '/').1 h
  exact hs (by simp)

theorem cleanStack_single (d : Str) (hs : '/' ∉ d) (h0 : d ≠ []) :
    cleanStack d = if d = ['.'] then [] else [d] := by
  unfold cleanStack
  rw [stringsSplit_of_not_mem _ _ hs, startsWith_slash_false d hs]
  simp only [List.foldl_cons, List.foldl_nil]
  unfold cleanStep
  by_cases h1 : d = ['.']
  · rw [if_pos (Or.inr h1), if_pos h1]
  · rw [if_neg (by simp [h0, h1]), if_neg h1]
    split <;> simp_all

theorem dirPrefix_single (d : Str) (hs : '/' ∉ d) (h0 : d ≠ []) :
    dirPrefix d = if d = ['.'] then [] else d ++ ['/'] := by
  unfold dirPrefix
  rw [cleanStack_single d hs h0, startsWith_slash_false d hs]
  by_cases h1 : d = ['.']
  · simp [h1]
  · simp [h1, stringsJoin]

theorem filepathClean_single_slash (d : Str) (hs : '/' ∉ d) (h0 : d ≠ []) (h1 : d ≠ ['.']) :
    filepathClean (d ++ ['/']) = d := by
  have hstack : (stringsSplit '/' (d ++ ['/'])).foldl
      (cleanStep (startsWith (d ++ ['/']) ['/'])) [] = [d] := by
    rw [stringsSplit_append_sep, startsWith_append_of_ne_nil _ _ h0, List.foldl_append]
    have e := cleanStack_single d hs h0
    unfold cleanStack at e
    rw [e, if_neg h1]
    simp [stringsSplit, cleanStep]
  unfold filepathClean
  rw [if_neg (by simp)]
  dsimp only
  rw [hstack, startsWith_append_of_ne_nil _ _ h0, startsWith_slash_false d hs]
  simp [stringsJoin, h0]

theorem filepathBase_append_name (pre name : Str) (hs : '/' ∉ name) (h0 : name ≠ [])
    (hpre : pre = [] ∨ ∃ x, pre = x ++ ['/']) : filepathBase (pre ++ name) = name := by
  have hr : '/' ∉ name.reverse := by simpa using hs
  have hrn : name.reverse ≠ [] := by simpa using h0
  have hdrop : ∀ rest : Str, (name.reverse ++ rest).dropWhile (· = '/') = name.reverse ++ rest := by
    intro rest
    rcases hn : name.reverse with _ | ⟨c, t⟩
    · exact absurd hn hrn
    · have hc : c ≠ '/' := by
        intro e
        apply hr
        rw [hn, e]
        simp
      rw [List.cons_append, List.dropWhile_cons_of_neg (by simpa using hc)]
  unfold filepathBase
  rw [if_neg (by simp [h0])]
  dsimp only
  rw [List.reverse_append, hdrop]
  have htake : (name.reverse ++ pre.reverse).takeWhile (· ≠ '/') = name.reverse := by
    rcases hpre with rfl | ⟨x, rfl⟩
    · simpa using takeWhile_ne_all _ _ hr
    · have e : (x ++ ['/']).reverse = '/' :: x.reverse := by simp
      rw [e]
      exact takeWhile_ne_of_not_mem _ _ _ hr
  rw [htake, List.reverse_reverse, if_neg h0]

theorem filepathDir_append_name (pre name : Str) (hs : '/' ∉ name)
    (hpre : pre = [] ∨ ∃ x, pre = x ++ ['/']) :
    filepathDir (pre ++ name) = filepathClean pre := by
  have hr : '/' ∉ name.reverse := by simpa using hs
  unfold filepathDir
  rw [List.reverse_append]
  rcases hpre with rfl | ⟨x, rfl⟩
  · have : (name.reverse ++ ([] : Str).reverse).dropWhile (· ≠ '/') = [] := by
      simpa using dropWhile_ne_all _ _ hr
    rw [this]; rfl
  · have e : (x ++ ['/']).reverse = '/' :: x.reverse := by simp
    rw [e, dropWhile_ne_of_not_mem _ _ _ hr]
    simp

/-- The destination path of a plain file name in a directory of one element. -/
theorem filepathJoin_single (d name : Str) (hd : '/' ∉ d) (hd0 : d ≠ [])
    (hs : '/' ∉ name) (h0 : name ≠ []) (h1 : name ≠ ['.']) (h2 : name ≠ ['.', '.']) :
    filepathJoin [d, name] = (if d = ['.'] then name else d ++ '/' :: name) ∧
    filepathDir (filepathJoin [d, name]) = d ∧
    filepathBase (filepathJoin [d, name]) = name := by
  have hj : filepathJoin [d, name] = (if d = ['.'] then [] else d ++ ['/']) ++ name := by
    rw [filepathJoin_pair _ _ hd0, filepathClean_append_name _ _ hd0 hs h0 h1 h2,
      dirPrefix_single d hd hd0]
  by_cases hdot : d = ['.']
  · rw [if_pos hdot] at hj
    rw [if_pos hdot, hj]
    refine ⟨rfl, ?_, filepathBase_append_name [] name hs h0 (Or.inl rfl)⟩
    rw [filepathDir_append_name [] name hs (Or.inl rfl), hdot]
    rfl
  · rw [if_neg hdot] at hj
    rw [if_neg hdot, hj]
    refine ⟨by simp, ?_, filepathBase_append_name _ name hs h0 (Or.inr ⟨d, rfl⟩)⟩
    rw [filepathDir_append_name _ name hs (Or.inr ⟨d, rfl⟩),
      filepathClean_single_slash d hd hd0 hdot]

/-- C9: for a URL that `isValidWebpFile` accepts, `getFilenameFromURL` returns
the classified segment (the text after the last `/`, cut at the first `?`) as it
stands: a non-empty run of digits followed by the five characters of the
extension.  It holds no `/`, `\` or `?` and is neither `.` nor `..`; joined to
the directory of `main` (the sanitized heading) it is the last element of the
destination path, whose directory is that directory. -/
theorem getFilenameFromURL_spec (u : Str) (h : isValidWebpFile u = true) :
    getFilenameFromURL u = segmentOf u ∧
    IsDigitsDotWebp (getFilenameFromURL u) ∧
    '/' ∉ getFilenameFromURL u ∧ '\\' ∉ getFilenameFromURL u ∧ '?' ∉ getFilenameFromURL u ∧
    getFilenameFromURL u ≠ ['.'] ∧ getFilenameFromURL u ≠ ['.', '.'] ∧
    (∀ h1Text : Str, h1Text ≠ [] →
      filepathJoin [sanitizeFilename h1Text, getFilenameFromURL u]
        = (if sanitizeFilename h1Text = ['.'] then getFilenameFromURL u
            else sanitizeFilename h1Text ++ '/' :: getFilenameFromURL u) ∧
      filepathDir (filepathJoin [sanitizeFilename h1Text, getFilenameFromURL u])
        = sanitizeFilename h1Text ∧
      filepathBase (filepathJoin [sanitizeFilename h1Text, getFilenameFromURL u])
        = getFilenameFromURL u) := by
  have hshape : IsDigitsDotWebp (getFilenameFromURL u) := (isValidWebpFile_iff_shape u).1 h
  have hlen := shape_length _ hshape
  have hslash : '/' ∉ getFilenameFromURL u := shape_not_mem _ hshape _ (by decide) (by decide)
  have h0 : getFilenameFromURL u ≠ [] := by
    intro e; rw [e] at hlen; simp at hlen
  have h1 : getFilenameFromURL u ≠ ['.'] := by
    intro e; rw [e] at hlen; simp at hlen
  have h2 : getFilenameFromURL u ≠ ['.', '.'] := by
    intro e; rw [e] at hlen; simp at hlen
  refine ⟨lastSegment_eq_segmentOf u, hshape, hslash,
    shape_not_mem _ hshape _ (by decide) (by decide),
    shape_not_mem _ hshape _ (by decide) (by decide), h1, h2, fun t ht => ?_⟩
  exact filepathJoin_single _ _ (slash_not_mem_sanitize t) (sanitize_ne_nil t ht) hslash h0 h1 h2

theorem getFilenameFromURL_spec_witness :
    isValidWebpFile "https://x.com/a/7.WEBP?x=1".toList = true ∧
    getFilenameFromURL "https://x.com/a/7.WEBP?x=1".toList = "7.WEBP".toList ∧
    getFilenameFromURL "https://x.com/a/007.webp".toList = "007.webp".toList ∧
    '/' ∉ getFilenameFromURL "https://x.com/a/7.WEBP?x=1".toList ∧
    filepathJoin [sanitizeFilename "My Gallery".toList,
        getFilenameFromURL "https://x.com/a/7.WEBP?x=1".toList]
      = "My Gallery/7.WEBP".toList :=
  ⟨by decide, by decide, by decide,
    (getFilenameFromURL_spec "https://x.com/a/7.WEBP?x=1".toList (by decide)).2.2.1,
    by decide⟩

/-- In a directory of one element the candidates are the directory, `/`, the
base name, `_`, the counter, the extension. -/
theorem candidateOf_in_dir (d name : Str) (k : Nat) (hd : '/' ∉ d) (hd0 : d ≠ [])
    (hd1 : d ≠ ['.']) (hs : '/' ∉ name) (h0 : name ≠ []) :
    candidateOf (d ++ '/' :: name) k = d ++ '/' ::
      (stringsTrimSuffix name (filepathExt name) ++ '_' :: formatInt k ++ filepathExt name) := by
  have e : d ++ '/' :: name = (d ++ ['/']) ++ name := by simp
  have hbase : filepathBase (d ++ '/' :: name) = name := by
    rw [e]; exact filepathBase_append_name _ name hs h0 (Or.inr ⟨d, rfl⟩)
  have hdir : filepathDir (d ++ '/' :: name) = d := by
    rw [e, filepathDir_append_name _ name hs (Or.inr ⟨d, rfl⟩),
      filepathClean_single_slash d hd hd0 hd1]
  rw [candidateOf_eq _ (by rw [hbase]; exact hs), hbase, hdir, dirPrefix_single d hd hd0,
    if_neg hd1]
  simp

/-- C2: `getUniqueFilename` on a filesystem given by the predicate `pathExists`.
A path that does not exist is returned unchanged.  For a path that exists, with
`candidateOf p k` the path `filepath.Join(dir, base_k ext)` the loop forms for the
counter `k`: as soon as some counter from 1 on has a free candidate, there is a
least such counter `k0`, every run with at least `k0` rounds of the loop returns
its candidate, that candidate does not exist, and the candidates of the counters
1 to `k0 - 1` all exist.  Whatever is returned does not exist.  For a path
`d/name` in a directory `d` of one element the candidate is the text
`d/base_k ext`. -/
theorem getUniqueFilename_spec (pathExists : Str → Bool) (p : Str) :
    (pathExists p = false → ∀ fuel, getUniqueFilename pathExists fuel p = some p) ∧
    (pathExists p = true → ∀ k, 1 ≤ k → pathExists (candidateOf p k) = false →
      ∃ k0, 1 ≤ k0 ∧ k0 ≤ k ∧ pathExists (candidateOf p k0) = false ∧
        (∀ j, 1 ≤ j → j < k0 → pathExists (candidateOf p j) = true) ∧
        ∀ fuel, k0 ≤ fuel → getUniqueFilename pathExists fuel p = some (candidateOf p k0)) ∧
    (∀ fuel q, getUniqueFilename pathExists fuel p = some q → pathExists q = false) ∧
    (∀ k, candidateOf p k = filepathJoin [filepathDir p,
      stringsTrimSuffix (filepathBase p) (filepathExt (filepathBase p)) ++ '_' :: formatInt k
        ++ filepathExt (filepathBase p)]) ∧
    (∀ (d name : Str) (k : Nat), '/' ∉ d → d ≠ [] → d ≠ ['.'] → '/' ∉ name → name ≠ [] →
      candidateOf (d ++ '/' :: name) k = d ++ '/' ::
        (stringsTrimSuffix name (filepathExt name) ++ '_' :: formatInt k ++ filepathExt name)) ∧
    candidateOf "My Gallery/1.webp".toList 2 = "My Gallery/1_2.webp".toList := by
  refine ⟨fun hp fuel => ?_, fun hp k hk1 hk => ?_,
    fun fuel q h => getUniqueFilename_free _ _ _ _ h, fun k => rfl,
    fun d name k h1 h2 h3 h4 h5 => candidateOf_in_dir d name k h1 h2 h3 h4 h5, by decide⟩
  · unfold getUniqueFilename
    rw [hp]; rfl
  · obtain ⟨k0, h1, h2, h3, h4⟩ := exists_least_free pathExists p k hk1 hk
    exact ⟨k0, h1, h2, h3, h4, fun fuel hf =>
      getUniqueFilename_eq_least pathExists p k0 fuel hp h1 hf h3 h4⟩

theorem downloadFile_fst (resp : Response) (fs : FileSystem) (p : Str) :
    (downloadFile resp fs p).1 = downloadResult resp := by
  unfold downloadResult downloadFile
  split_ifs <;> rfl

theorem withFile_self (fs : FileSystem) (p : Str) : withFile fs p p = true := by
  simp [withFile]

theorem withFile_of_true (fs : FileSystem) (p q : Str) (h : fs q = true) :
    withFile fs p q = true := by
  simp [withFile, h]

theorem withFile_support (fs : FileSystem) (p q : Str) (files : List Str)
    (hsupp : ∀ x, fs x = true → x ∈ files) (h : withFile fs p q = true) : q ∈ p :: files := by
  simp only [withFile, Bool.or_eq_true, decide_eq_true_eq] at h
  rcases h with h | h
  · rw [h]; exact List.mem_cons_self _ _
  · exact List.mem_cons_of_mem _ (hsupp q h)

theorem downloadFile_snd (resp : Response) (fs : FileSystem) (p : Str) :
    (∀ q, fs q = true → (downloadFile resp fs p).2 q = true) ∧
    (∀ files : List Str, (∀ x, fs x = true → x ∈ files) →
      ∀ q, (downloadFile resp fs p).2 q = true → q ∈ p :: files) ∧
    ((downloadFile resp fs p).1 = none ∨
        (downloadFile resp fs p).1 = some DownloadError.fileWrite →
      (downloadFile resp fs p).2 p = true) := by
  unfold downloadFile
  split_ifs
  · exact ⟨fun q h => h, fun files hs q h => List.mem_cons_of_mem _ (hs q h), by simp⟩
  · exact ⟨fun q h => h, fun files hs q h => List.mem_cons_of_mem _ (hs q h), by simp⟩
  · exact ⟨fun q h => h, fun files hs q h => List.mem_cons_of_mem _ (hs q h), by simp⟩
  · exact ⟨fun q h => withFile_of_true fs p q h,
      fun files hs q h => withFile_support fs p q files hs h, fun _ => withFile_self fs p⟩
  · exact ⟨fun q h => withFile_of_true fs p q h,
      fun files hs q h => withFile_support fs p q files hs h, fun _ => withFile_self fs p⟩

/-- When all the paths the filesystem shows as existing are among the `n` paths
of a list, `getUniqueFilename` returns within `n + 1` rounds of its loop. -/
theorem getUniqueFilename_total (fs : FileSystem) (files : List Str) (fuel : Nat) (p : Str)
    (hsupp : ∀ x, fs x = true → x ∈ files) (hf : files.length + 1 ≤ fuel) :
    ∃ q, getUniqueFilename fs fuel p = some q := by
  by_cases hp : fs p = true
  · obtain ⟨k, hk1, hk2, hk3⟩ := exists_free_candidate files p
    have hk : fs (candidateOf p k) = false := by
      rw [Bool.eq_false_iff]
      exact fun h => hk3 (hsupp _ h)
    obtain ⟨k0, h1, h2, h3, h4⟩ := exists_least_free fs p k hk1 hk
    exact ⟨_, getUniqueFilename_eq_least fs p k0 fuel hp h1 (by omega) h3 h4⟩
  · have hp2 : fs p = false := by simpa using hp
    refine ⟨p, ?_⟩
    unfold getUniqueFilename
    rw [hp2]; rfl

/-- When every candidate exists, the loop of `getUniqueFilename` does not
return, whatever the number of rounds. -/
theorem getUniqueFilename_none (fs : FileSystem) (p : Str) (hp : fs p = true)
    (hall : ∀ k, fs (candidateOf p k) = true) (fuel : Nat) :
    getUniqueFilename fs fuel p = none := by
  have hloop : ∀ (fuel counter : Nat),
      uniqueLoop fs (filepathDir p)
        (stringsTrimSuffix (filepathBase p) (filepathExt (filepathBase p)))
        (filepathExt (filepathBase p)) fuel counter = none := by
    intro fuel
    induction fuel with
    | zero => intro counter; rfl
    | succ f ih =>
      intro counter
      unfold uniqueLoop
      dsimp only
      have := hall counter
      unfold candidateOf at this
      rw [this]
      simp only [Bool.not_true, Bool.false_eq_true, if_false]
      exact ih _
  unfold getUniqueFilename
  rw [hp]
  simp only [Bool.not_true, Bool.false_eq_true, if_false]
  exact hloop fuel 1

theorem uniqueLoop_mono (pathExists : Str → Bool) (dir basename ext : Str) :
    ∀ (fuel counter : Nat) (q : Str),
      uniqueLoop pathExists dir basename ext fuel counter = some q →
      ∀ fuel2, fuel ≤ fuel2 → uniqueLoop pathExists dir basename ext fuel2 counter = some q := by
  intro fuel
  induction fuel with
  | zero => intro counter q h; simp [uniqueLoop] at h
  | succ f ih =>
    intro counter q h fuel2 hle
    obtain ⟨g, rfl⟩ : ∃ g, fuel2 = g + 1 := ⟨fuel2 - 1, by omega⟩
    unfold uniqueLoop at h ⊢
    dsimp only at h ⊢
    split_ifs at h ⊢ with hc
    · exact h
    · exact ih _ _ h g (by omega)

theorem getUniqueFilename_mono (pathExists : Str → Bool) (fuel fuel2 : Nat) (p q : Str)
    (h : getUniqueFilename pathExists fuel p = some q) (hle : fuel ≤ fuel2) :
    getUniqueFilename pathExists fuel2 p = some q := by
  unfold getUniqueFilename at h ⊢
  split_ifs at h ⊢ with hc
  · exact h
  · exact uniqueLoop_mono _ _ _ _ _ _ _ h fuel2 hle

/-- What one round of the loop of `main` does to the state, when it returns. -/
theorem mainEach_some (fuel : Nat) (url dirName : Str) (st st1 : RunState) (img : ImgElement)
    (h : mainEach fuel url dirName st img = some st1) :
    st1.downloadCount = st.downloadCount + (if countsAsDownloaded url img then 1 else 0) ∧
    st1.calls.map (fun c => (c.url, c.err))
      = st.calls.map (fun c => (c.url, c.err)) ++ (attempt url img).toList ∧
    (∀ files : List Str, (∀ x, st.files x = true → x ∈ files) →
      ∃ files1 : List Str, files1.length ≤ files.length + 1 ∧
        ∀ x, st1.files x = true → x ∈ files1) ∧
    (LoopInvariant st → LoopInvariant st1) ∧
    (∀ fuel2, fuel ≤ fuel2 → mainEach fuel2 url dirName st img = some st1) := by
  unfold mainEach at h
  unfold countsAsDownloaded attempt
  cases hsrc : img.src with
  | none =>
    rw [hsrc] at h
    have e : st = st1 := Option.some.inj h
    subst e
    refine ⟨by simp, by simp, fun files hs => ⟨files, by omega, hs⟩, fun hi => hi,
      fun fuel2 _ => ?_⟩
    unfold mainEach
    rw [hsrc]
  | some src0 =>
    rw [hsrc] at h
    dsimp only at h ⊢
    by_cases hv : isValidWebpFile (absoluteURL url src0) = true
    · rw [if_pos hv] at h
      rw [if_pos hv, hv]
      cases hg : getUniqueFilename st.files fuel
          (filepathJoin [dirName, getFilenameFromURL (absoluteURL url src0)]) with
      | none => rw [hg] at h; exact absurd h (by simp)
      | some q =>
        rw [hg] at h
        have e := Option.some.inj h
        subst e
        have hq : st.files q = false := getUniqueFilename_free _ _ _ _ hg
        obtain ⟨hsub, hsupp, hcreated⟩ := downloadFile_snd img.response st.files q
        refine ⟨?_, ?_, fun files hs => ⟨q :: files, by simp, hsupp files hs⟩, ?_,
          fun fuel2 hle => ?_⟩
        · dsimp only
          rw [downloadFile_fst]
          cases downloadResult img.response <;> simp
        · simp [downloadFile_fst]
        · rintro ⟨hin, hpw⟩
          constructor
          · intro c hc hcr
            dsimp only at hc ⊢
            rw [List.mem_append, List.mem_singleton] at hc
            rcases hc with hc | rfl
            · exact hsub _ (hin c hc hcr)
            · apply hcreated
              simpa [fileCreated] using hcr
          · dsimp only
            rw [List.pairwise_append]
            refine ⟨hpw, List.pairwise_singleton _ _, fun a ha b hb hcr => ?_⟩
            rw [List.mem_singleton] at hb
            subst hb
            intro e
            have e2 : a.adjustedPath = q := e
            have := hin a ha hcr
            rw [e2, hq] at this
            exact absurd this (by simp)
        · unfold mainEach
          rw [hsrc]
          dsimp only
          rw [if_pos hv, getUniqueFilename_mono _ _ _ _ _ hg hle]
    · rw [if_neg hv] at h
      have e : st = st1 := Option.some.inj h
      subst e
      rw [if_neg hv]
      refine ⟨by simp [hv], by simp, fun files hs => ⟨files, by omega, hs⟩, fun hi => hi,
        fun fuel2 _ => ?_⟩
      unfold mainEach
      rw [hsrc]
      dsimp only
      rw [if_neg hv]

theorem mainEach_total (fuel : Nat) (url dirName : Str) (st : RunState) (img : ImgElement)
    (files : List Str) (hsupp : ∀ x, st.files x = true → x ∈ files)
    (hf : files.length + 1 ≤ fuel) : ∃ st1, mainEach fuel url dirName st img = some st1 := by
  unfold mainEach
  cases img.src with
  | none => exact ⟨st, rfl⟩
  | some src0 =>
    dsimp only
    split
    · obtain ⟨q, hq⟩ := getUniqueFilename_total st.files files fuel
        (filepathJoin [dirName, getFilenameFromURL (absoluteURL url src0)]) hsupp hf
      rw [hq]
      exact ⟨_, rfl⟩
    · exact ⟨st, rfl⟩

theorem mainLoop_some (fuel : Nat) (url dirName : Str) :
    ∀ (imgs : List ImgElement) (st r : RunState), mainLoop fuel url dirName st imgs = some r →
      r.downloadCount = st.downloadCount + imgs.countP (countsAsDownloaded url) ∧
      r.calls.map (fun c => (c.url, c.err))
        = st.calls.map (fun c => (c.url, c.err)) ++ imgs.filterMap (attempt url) ∧
      (LoopInvariant st → LoopInvariant r) ∧
      (∀ fuel2, fuel ≤ fuel2 → mainLoop fuel2 url dirName st imgs = some r) := by
  intro imgs
  induction imgs with
  | nil =>
    intro st r h
    have e : st = r := Option.some.inj h
    subst e
    exact ⟨by simp, by simp, fun hi => hi, fun _ _ => rfl⟩
  | cons img imgs ih =>
    intro st r h
    unfold mainLoop at h
    cases h1 : mainEach fuel url dirName st img with
    | none => rw [h1] at h; exact absurd h (by simp)
    | some st1 =>
      rw [h1] at h
      obtain ⟨a1, a2, -, a4, a5⟩ := mainEach_some _ _ _ _ _ _ h1
      obtain ⟨b1, b2, b4, b5⟩ := ih st1 r h
      refine ⟨?_, ?_, fun hi => b4 (a4 hi), fun fuel2 hle => ?_⟩
      · rw [b1, a1, List.countP_cons]
        omega
      · rw [b2, a2, List.filterMap_cons]
        cases attempt url img <;> simp
      · unfold mainLoop
        rw [a5 fuel2 hle]
        exact b5 fuel2 hle

theorem mainLoop_total (fuel : Nat) (url dirName : Str) :
    ∀ (imgs : List ImgElement) (st : RunState) (files : List Str),
      (∀ x, st.files x = true → x ∈ files) → files.length + imgs.length + 1 ≤ fuel →
      ∃ r, mainLoop fuel url dirName st imgs = some r := by
  intro imgs
  induction imgs with
  | nil => intro st _ _ _; exact ⟨st, rfl⟩
  | cons img imgs ih =>
    intro st files hsupp hf
    rw [List.length_cons] at hf
    obtain ⟨st1, h1⟩ := mainEach_total fuel url dirName st img files hsupp (by omega)
    obtain ⟨files1, hlen, hsupp1⟩ := (mainEach_some _ _ _ _ _ _ h1).2.2.1 files hsupp
    obtain ⟨r, hr⟩ := ih st1 files1 hsupp1 (by omega)
    refine ⟨r, ?_⟩
    unfold mainLoop
    rw [h1]
    exact hr

theorem loopInvariant_init (fs : FileSystem) : LoopInvariant ⟨fs, 0, []⟩ := by
  constructor
  · intro c hc; simp at hc
  · exact List.Pairwise.nil

theorem main_finished (fuel : Nat) (url h1Text : Str) (mkdirFails : Bool)
    (imgs : List ImgElement) (fs : FileSystem) (r : RunState)
    (h : main fuel url h1Text mkdirFails imgs fs = RunResult.finished r) :
    h1Text ≠ [] ∧ mkdirFails = false ∧
      mainLoop fuel url (sanitizeFilename h1Text) ⟨fs, 0, []⟩ imgs = some r := by
  unfold main at h
  by_cases h0 : h1Text = []
  · rw [if_pos h0] at h; cases h
  · rw [if_neg h0] at h
    dsimp only at h
    cases mkdirFails with
    | true => simp at h
    | false =>
      simp only [Bool.false_eq_true, if_false] at h
      cases hl : mainLoop fuel url (sanitizeFilename h1Text) ⟨fs, 0, []⟩ imgs with
      | none => rw [hl] at h; cases h
      | some st =>
        rw [hl] at h
        have e : st = r := RunResult.finished.inj h
        exact ⟨h0, rfl, by rw [e]⟩

theorem main_of_mainLoop (fuel : Nat) (url h1Text : Str) (imgs : List ImgElement)
    (fs : FileSystem) (r : RunState) (h0 : h1Text ≠ [])
    (h : mainLoop fuel url (sanitizeFilename h1Text) ⟨fs, 0, []⟩ imgs = some r) :
    main fuel url h1Text false imgs fs = RunResult.finished r := by
  unfold main
  rw [if_neg h0]
  dsimp only
  simp only [Bool.false_eq_true, if_false]
  rw [h]

theorem main_total (url h1Text : Str) (imgs : List ImgElement) (fs : FileSystem)
    (files : List Str) (extra : Nat) (h : h1Text ≠ [])
    (hsupp : ∀ x, fs x = true → x ∈ files) :
    ∃ r, main (files.length + imgs.length + 1 + extra) url h1Text false imgs fs
      = RunResult.finished r := by
  obtain ⟨r, hr⟩ := mainLoop_total (files.length + imgs.length + 1 + extra) url
    (sanitizeFilename h1Text) imgs ⟨fs, 0, []⟩ files hsupp (by omega)
  exact ⟨r, main_of_mainLoop _ _ _ _ _ _ h hr⟩

theorem longName_valid : isValidWebpFile (absoluteURL pageURL longName) = true := by
  decide

theorem longName_filePath :
    filepathJoin [sanitizeFilename ['d'], getFilenameFromURL (absoluteURL pageURL longName)]
      = ['d'] ++ '/' :: longName := by
  decide

theorem longName_trim :
    stringsTrimSuffix longName (filepathExt longName) = List.replicate 300 '7' ∧
    filepathExt longName = dotWebp := by
  decide

theorem slash_not_mem_longName : '/' ∉ longName := by decide

/-- On `longNameFs` the desired path of the long name and every candidate
formed from it exist. -/
theorem longName_all_exist :
    longNameFs (['d'] ++ '/' :: longName) = true ∧
    ∀ k, longNameFs (candidateOf (['d'] ++ '/' :: longName) k) = true := by
  constructor
  · have e : ['d'] ++ '/' :: longName = (['d'] ++ ['/']) ++ longName := rfl
    unfold longNameFs
    rw [e, filepathBase_append_name _ longName slash_not_mem_longName (by decide)
      (Or.inr ⟨['d'], rfl⟩)]
    decide
  · intro k
    rw [candidateOf_in_dir ['d'] longName k (by decide) (by decide) (by decide)
      slash_not_mem_longName (by decide), longName_trim.1, longName_trim.2]
    have e : ['d'] ++ '/' :: (List.replicate 300 '7' ++ '_' :: formatInt k ++ dotWebp)
        = (['d'] ++ ['/']) ++ (List.replicate 300 '7' ++ '_' :: formatInt k ++ dotWebp) := rfl
    have hs : '/' ∉ List.replicate 300 '7' ++ '_' :: formatInt k ++ dotWebp := by
      simp only [List.mem_append, List.mem_cons, not_or]
      exact ⟨⟨by decide, by decide, slash_not_mem_formatInt k⟩, by decide⟩
    unfold longNameFs
    rw [e, filepathBase_append_name _ _ hs (by simp) (Or.inr ⟨['d'], rfl⟩)]
    simp

/-- The run over `longNameImgs` on `longNameFs` does not end: the first call of
`getUniqueFilename` never returns, the second element is never looked at. -/
theorem main_longName_notFinished (fuel : Nat) :
    main fuel pageURL ['d'] false longNameImgs longNameFs = RunResult.notFinished := by
  have hg := getUniqueFilename_none longNameFs _ longName_all_exist.1 longName_all_exist.2 fuel
  have he : mainEach fuel pageURL (sanitizeFilename ['d']) ⟨longNameFs, 0, []⟩
      ⟨some longName, okResponse⟩ = none := by
    unfold mainEach
    dsimp only
    rw [if_pos longName_valid, longName_filePath, hg]
  unfold main
  rw [if_neg (by decide)]
  dsimp only
  simp only [Bool.false_eq_true, if_false]
  unfold longNameImgs mainLoop
  rw [he]

/-- C3 as stated fails: with a file name of 300 digits, for which `os.Stat`
answers "file name too long" on the desired path and on every candidate,
`getUniqueFilename` never returns; no count is reported and the `img` element
after it is never visited. -/
theorem main_count_counterexample :
    ¬ (∀ (url h1Text : Str) (imgs : List ImgElement) (fs : FileSystem), h1Text ≠ [] →
        ∃ (fuel : Nat) (r : RunState),
          main fuel url h1Text false imgs fs = RunResult.finished r ∧
          r.downloadCount = imgs.countP (countsAsDownloaded url)) := by
  intro hall
  obtain ⟨fuel, r, hr, -⟩ := hall pageURL ['d'] longNameImgs longNameFs (by decide)
  rw [main_longName_notFinished fuel] at hr
  cases hr

/-- C3, as the code has it: `main` under a non-empty heading, over any list of
`img` elements, any answers to the downloads and any filesystem.  In every run
that ends (the directory made, every call of `getUniqueFilename` returned) the
downloads attempted are, in document order, those of the elements that have a
`src` whose URL qualifies, each with the outcome assigned to it, and the count
reported is the number of elements that have a `src`, qualify and were
downloaded without error; more rounds give the same run.  The run does end when
the paths shown as existing are among those of a finite list: then
`files.length + imgs.length + 1` rounds suffice.  A download that meets the
status 404 returns an error and leaves the filesystem as it was; when
`os.MkdirAll` fails the program exits before the loop. -/
theorem main_count (url h1Text : Str) (imgs : List ImgElement) (fs : FileSystem)
    (h : h1Text ≠ []) :
    (∀ (fuel : Nat) (r : RunState),
      main fuel url h1Text false imgs fs = RunResult.finished r →
        r.downloadCount = imgs.countP (countsAsDownloaded url) ∧
        r.calls.map (fun c => (c.url, c.err)) = imgs.filterMap (attempt url) ∧
        ∀ fuel2, fuel ≤ fuel2 →
          main fuel2 url h1Text false imgs fs = RunResult.finished r) ∧
    (∀ (files : List Str), (∀ p, fs p = true → p ∈ files) → ∀ extra : Nat,
      ∃ r, main (files.length + imgs.length + 1 + extra) url h1Text false imgs fs
          = RunResult.finished r ∧
        r.downloadCount = imgs.countP (countsAsDownloaded url) ∧
        r.calls.map (fun c => (c.url, c.err)) = imgs.filterMap (attempt url)) ∧
    (∀ resp : Response, resp.getFails = false → resp.statusCode = 404 →
      ∀ (fs2 : FileSystem) (p : Str),
        downloadFile resp fs2 p = (some (DownloadError.httpStatus 404), fs2)) ∧
    (∀ fuel : Nat, main fuel url h1Text true imgs fs = RunResult.fatal) := by
  have hpart : ∀ (fuel : Nat) (r : RunState),
      main fuel url h1Text false imgs fs = RunResult.finished r →
        r.downloadCount = imgs.countP (countsAsDownloaded url) ∧
        r.calls.map (fun c => (c.url, c.err)) = imgs.filterMap (attempt url) ∧
        ∀ fuel2, fuel ≤ fuel2 →
          main fuel2 url h1Text false imgs fs = RunResult.finished r := by
    intro fuel r hr
    obtain ⟨a1, a2, -, a4⟩ := mainLoop_some _ _ _ _ _ _ (main_finished _ _ _ _ _ _ _ hr).2.2
    exact ⟨by simpa using a1, by simpa using a2,
      fun fuel2 hle => main_of_mainLoop _ _ _ _ _ _ h (a4 fuel2 hle)⟩
  refine ⟨hpart, fun files hsupp extra => ?_, fun resp h1 h2 fs2 p => ?_, fun fuel => ?_⟩
  · obtain ⟨r, hr⟩ := main_total url h1Text imgs fs files extra h hsupp
    exact ⟨r, hr, (hpart _ r hr).1, (hpart _ r hr).2.1⟩
  · unfold downloadFile
    rw [h1, h2]
    rfl
  · unfold main
    rw [if_neg h]
    rfl

theorem main_count_witness :
    "My Gallery".toList ≠ [] ∧
    (∃ r, main (([] : List Str).length + galleryImgs.length + 1 + 0) pageURL
        "My Gallery".toList false galleryImgs (existsIn []) = RunResult.finished r ∧
      r.downloadCount = galleryImgs.countP (countsAsDownloaded pageURL) ∧
      r.calls.map (fun c => (c.url, c.err)) = galleryImgs.filterMap (attempt pageURL)) ∧
    (main 4 pageURL "My Gallery".toList false galleryImgs (existsIn [])).summary
      = some (2, galleryCalls) ∧
    galleryImgs.countP (countsAsDownloaded pageURL) = 2 :=
  ⟨by decide,
    (main_count pageURL "My Gallery".toList galleryImgs (existsIn []) (by decide)).2.1 []
      (fun p hp => by simp [existsIn] at hp) 0,
    by decide, by decide⟩

/-- C8, as the code has it: in a run of `main` that ends, the path returned by
`getUniqueFilename` for a call of `downloadFile` that left a file there (it
returned no error, or failed only while copying) is not returned for any later
call; that path exists in the filesystem at the end of the run; and runs do end,
given `files.length + imgs.length + 1` rounds or more, when the paths shown as
existing are among those of the list `files`. -/
theorem finalPath_not_reused_once_created (fuel : Nat) (url h1Text : Str) (mkdirFails : Bool)
    (imgs : List ImgElement) (fs : FileSystem) (r : RunState)
    (h : main fuel url h1Text mkdirFails imgs fs = RunResult.finished r) :
    r.calls.Pairwise (fun a b => fileCreated a = true → a.adjustedPath ≠ b.adjustedPath) ∧
    (∀ c ∈ r.calls, fileCreated c = true → r.files c.adjustedPath = true) ∧
    (∀ c ∈ r.calls, c.err = none → fileCreated c = true) ∧
    (∀ files : List Str, (∀ p, fs p = true → p ∈ files) → ∀ extra, ∃ r2,
      main (files.length + imgs.length + 1 + extra) url h1Text false imgs fs
        = RunResult.finished r2) := by
  obtain ⟨h0, -, hloop⟩ := main_finished _ _ _ _ _ _ _ h
  obtain ⟨hin, hpw⟩ := (mainLoop_some _ _ _ _ _ _ hloop).2.2.1 (loopInvariant_init fs)
  refine ⟨hpw, hin, fun c _ hc => ?_,
    fun files hsupp extra => main_total url h1Text imgs fs files extra h0 hsupp⟩
  simp [fileCreated, hc]

theorem finalPath_not_reused_once_created_witness :
    main 4 pageURL ['d'] false repeatedImgs (existsIn []) = RunResult.finished repeatedResult ∧
    repeatedResult.calls.Pairwise
      (fun a b => fileCreated a = true → a.adjustedPath ≠ b.adjustedPath) :=
  ⟨by rfl,
    (finalPath_not_reused_once_created 4 pageURL ['d'] false repeatedImgs (existsIn [])
      repeatedResult (by rfl)).1⟩

/-- C8 as stated fails: two `img` elements with the same file name, the first
download meeting a 404 and so leaving no file; `getUniqueFilename` returns
`d/1.webp` for the first and again for the second. -/
theorem finalPath_reused_counterexample :
    ¬ (∀ (fuel : Nat) (url h1Text : Str) (mkdirFails : Bool) (imgs : List ImgElement)
        (fs : FileSystem) (r : RunState),
        main fuel url h1Text mkdirFails imgs fs = RunResult.finished r →
        r.calls.Pairwise (fun a b => a.adjustedPath ≠ b.adjustedPath)) := by
  intro hall
  have := hall 4 pageURL ['d'] false repeatedImgs (existsIn []) repeatedResult (by rfl)
  revert this
  decide

end WebpDownloader
